import Mathlib

/-!
Verification of the heading-detection engine in `detect_headings.py`
(repository `Advanced_PDF_viewer`).

The Python source is shallowly embedded below.  Conventions used throughout:

* a PDF page is the list of word tokens the decoder yields for it
  (`page.extract_words(...)`); a document is the list of its pages;
* Python `float` values coming from the decoder are modelled as `Rat`;
* a word's `size` attribute is `Option Rat`: `none` models a value for
  which Python's `float(...)` raises (`TypeError`/`ValueError`);
* code that can raise is embedded in `Except String` / `Option`;
* `round(x, 1)` is modelled exactly on rationals with round-half-to-even
  (Python's rounding mode);
* `str.strip()` and the regex classes `\d`, `\s` are modelled over the
  characters recognised by `Char.isWhitespace` / `Char.isDigit`.
-/

/-- A word token as produced by `page.extract_words(extra_attrs=["fontname", "size"])`
(detect_headings.py lines 47, 143, 227).  `size` is `none` when the value cannot be
coerced by Python's `float`. -/
structure Word where
  text : String
  x0 : Rat
  x1 : Rat
  top : Rat
  size : Option Rat
deriving DecidableEq, Repr

/-- A heading record as built in `extract_headings` (detect_headings.py lines 174-183).
`level` is `Option Int` because `build_tree` (lines 359-363) must also accept records
whose `"level"` entry is missing or not a number; `content_html` is filled in later by
`attach_section_html`. -/
structure Heading where
  id : Nat
  page : Nat
  top : Rat
  level : Option Int
  font_size : Rat
  text : String
  content_html : Option String
deriving DecidableEq, Repr

instance : Inhabited Heading :=
  ⟨⟨0, 0, 0, none, 0, "", none⟩⟩

/-- Round-half-to-even to an integer, Python's rounding mode for `round`. -/
def roundHalfEven (x : Rat) : Int :=
  let f : Int := ⌊x⌋
  let r : Rat := x - f
  if r < 1/2 then f
  else if 1/2 < r then f + 1
  else if f % 2 = 0 then f else f + 1

/-- `round(x, 1)` from Python (used at detect_headings.py lines 53 and 149). -/
def roundTo1 (x : Rat) : Rat :=
  (roundHalfEven (10 * x) : Rat) / 10

/-- Python `str.strip()`: drop leading and trailing whitespace. -/
def pyStrip (s : String) : String :=
  ⟨((s.data.dropWhile Char.isWhitespace).reverse.dropWhile Char.isWhitespace).reverse⟩

/-- Python `" ".join(texts)`. -/
def joinSpace : List String → String
  | [] => ""
  | [s] => s
  | s :: rest => s ++ " " ++ joinSpace rest

/-- Keys of a Python dict / `Counter` in insertion order: first occurrence of each
value, in order of appearance.  `seen` accumulates the keys already emitted. -/
def uniqAux (seen : List Rat) : List Rat → List Rat
  | [] => []
  | x :: xs => if x ∈ seen then uniqAux seen xs else x :: uniqAux (x :: seen) xs

def uniqKeys (l : List Rat) : List Rat := uniqAux [] l

/-- Python `max(items, key=...)`: the first element attaining the maximal key.
`max` keeps the current best unless a strictly greater key appears. -/
def maxByFirst (f : Rat → Nat) (x : Rat) (xs : List Rat) : Rat :=
  xs.foldl (fun best y => if f best < f y then y else best) x

/-- Insert into a descending-sorted list (used to model `sorted(..., reverse=True)`,
detect_headings.py lines 62-69). -/
def insertDesc (x : Rat) : List Rat → List Rat
  | [] => [x]
  | y :: ys => if y < x then x :: y :: ys else y :: insertDesc x ys

/-- `sorted(l, reverse=True)`. -/
def sortDesc (l : List Rat) : List Rat := l.foldr insertDesc []

/-- Insert into an ascending-sorted list of rationals. -/
def insertAsc (x : Rat) : List Rat → List Rat
  | [] => [x]
  | y :: ys => if x < y then x :: y :: ys else y :: insertAsc x ys

/-- `sorted(l)` for rationals (used for `sorted(lines.items())`, line 153, whose
keys are distinct dict keys). -/
def sortAsc (l : List Rat) : List Rat := l.foldr insertAsc []

/-- The pages actually scanned: `range(n_pages)` or `range(min(sample, n_pages))`
(detect_headings.py lines 39-43 and 135-139). -/
def pagesScanned (pages : List (List Word)) : Option Nat → List (List Word)
  | none => pages
  | some n => pages.take n

/-- The multiset of rounded font sizes fed to `size_counts`
(detect_headings.py lines 45-53): every word whose `size` coerces, rounded to one
decimal, in scan order.  Unparseable sizes are skipped by the
`try/except: continue`. -/
def sizeList (pages : List (List Word)) (sample_pages : Option Nat) : List Rat :=
  ((pagesScanned pages sample_pages).flatten.filterMap (fun w => w.size)).map roundTo1

/-- `size_counts[s]` for the histogram of detect_headings.py line 53. -/
def sizeCount (pages : List (List Word)) (sample_pages : Option Nat) (s : Rat) : Nat :=
  (sizeList pages sample_pages).count s

/-- `analyze_font_sizes` (detect_headings.py lines 30-71).  Returns
`(body_size, heading_sizes)`; raises (`.error`) when the histogram is empty.
The `size_counts` return value is represented by `sizeCount` above. -/
def analyze_font_sizes (pages : List (List Word)) (sample_pages : Option Nat) :
    Except String (Rat × List Rat) :=
  let sizes := sizeList pages sample_pages
  match uniqKeys sizes with
  | [] => .error ("No font sizes found in the PDF.")
  | k :: ks =>
      let body_size := maxByFirst (fun s => sizes.count s) k ks
      let heading_sizes :=
        sortDesc ((k :: ks).filter
          (fun s => decide (body_size + 1/2 < s) && decide (3 ≤ sizes.count s)))
      .ok (body_size, heading_sizes)

/-- `statistics.median` (detect_headings.py line 161): sort, take the middle
element, or the mean of the two middle ones.  Total here; the empty case (on
which Python raises) is never reached because it is only applied to non-blank
lines. -/
def medianList (l : List Rat) : Rat :=
  let s := sortAsc l
  let n := l.length
  if n % 2 = 1 then s.getD (n / 2) 0
  else (s.getD (n / 2 - 1) 0 + s.getD (n / 2) 0) / 2

/-- The character class `[A-Z0-9 ,()/\-]` of the `upper_section` regex
(detect_headings.py line 100). -/
def isSectionChar (c : Char) : Bool :=
  (decide ('A' ≤ c) && decide (c ≤ 'Z')) || c.isDigit ||
    decide (c ∈ [' ', ',', '(', ')', '/', '-'])

/-- Matcher for the regex fragment `\s*[A-Z0-9 ,()/\-]+$`: either the whole
remainder is a non-empty run of section characters, or one more whitespace
character is consumed.  (Backtracking between `\s+` and the class, which both
accept a space, is captured by this disjunction.) -/
def wsClassTail : List Char → Bool
  | [] => false
  | c :: rest => (c :: rest).all isSectionChar || (c.isWhitespace && wsClassTail rest)

/-- `re.match(r"^\d+\.\s+[A-Z0-9 ,()/\-]+$", s)` (detect_headings.py line 100):
one or more digits, a dot, at least one whitespace, then a non-empty run of the
section character class reaching the end of the string. -/
def upperSectionMatch (s : String) : Bool :=
  let cs := s.data
  let ds := cs.takeWhile Char.isDigit
  !ds.isEmpty &&
    match cs.drop ds.length with
    | '.' :: c :: rest => c.isWhitespace && wsClassTail rest
    | _ => false

/-- `re.match(r"^\d+\.\d+", s)` (detect_headings.py line 102): a prefix of the
form digits, dot, digit. -/
def subsectionMatch (s : String) : Bool :=
  let cs := s.data
  let ds := cs.takeWhile Char.isDigit
  !ds.isEmpty &&
    match cs.drop ds.length with
    | '.' :: c :: _ => c.isDigit
    | _ => false

/-- The tier scan of `classify_line_level` (detect_headings.py lines 87-91):
`enumerate(heading_sizes, start=1)` with the first tier whose size is within
`size_tol` of the median.  `i` is the 1-based index of the head of the list. -/
def firstTier (median size_tol : Rat) : Nat → List Rat → Option Nat
  | _, [] => none
  | i, h :: rest =>
      if |median - h| ≤ size_tol then some i else firstTier median size_tol (i + 1) rest

/-- `classify_line_level` (detect_headings.py lines 74-116).  `body_size` is a
parameter of the Python function but is not read by its body. -/
def classify_line_level (text : String) (median_size : Rat) (body_size : Rat)
    (heading_sizes : List Rat) (size_tol : Rat) : Option Int :=
  match firstTier median_size size_tol 1 heading_sizes with
  | none => none
  | some tier =>
      let text_stripped := pyStrip text
      if tier = 1 then some 1
      else if upperSectionMatch text_stripped then some 2
      else if subsectionMatch text_stripped then some 3
      else some (2 + ((tier : Int) - 2))

/-- The per-line decision of the `extract_headings` loop (detect_headings.py
lines 163-171): classify the line, then drop it if its text exceeds 160
characters. -/
def line_heading_level (text : String) (median_size : Rat) (body_size : Rat)
    (heading_sizes : List Rat) (size_tol : Rat) : Option Int :=
  match classify_line_level text median_size body_size heading_sizes size_tol with
  | none => none
  | some level => if 160 < text.length then none else some level

/-- `BULLET_CHARS` (detect_headings.py line 190). -/
def bulletChars : List Char := ['•', '-', '–', '—', '▪', '‣', '·']

/-- `GAP_THRESHOLD` (detect_headings.py line 191). -/
def gapThreshold : Rat := 14

/-- The separator chosen between two consecutive words of a line
(detect_headings.py lines 202-209): four spaces for a large gap, one space
otherwise. -/
def gapSep (prev curr : Word) : String :=
  if gapThreshold < curr.x0 - prev.x1 then "    " else " "

/-- The text accumulated after the first word: for each consecutive pair, the
separator followed by the current word's text. -/
def rawFrom (prev : Word) : List Word → String
  | [] => ""
  | c :: rest => gapSep prev c ++ c.text ++ rawFrom c rest

/-- The `large_gaps` counter of `assemble_line` (detect_headings.py lines
200-207). -/
def largeGapsFrom (prev : Word) : List Word → Nat
  | [] => 0
  | c :: rest =>
      (if gapThreshold < c.x0 - prev.x1 then 1 else 0) + largeGapsFrom c rest

/-- First-character bullet test `stripped[:1] in BULLET_CHARS`
(detect_headings.py line 216), on a string already known non-empty. -/
def startsWithBullet (s : String) : Bool :=
  match s.data with
  | [] => false
  | c :: _ => c ∈ bulletChars

/-- `assemble_line` (detect_headings.py lines 194-222): build the line's text
and classify it as `"blank"`, `"bullet"`, `"table"` or `"paragraph"`.  Note the
order of the checks: the bullet test comes before the large-gap test. -/
def assemble_line (words : List Word) : String × String :=
  match words with
  | [] => ("", "blank")
  | w :: ws =>
      let raw := w.text ++ rawFrom w ws
      let stripped := pyStrip raw
      if stripped = "" then ("", "blank")
      else if startsWithBullet stripped then (stripped, "bullet")
      else if 2 ≤ largeGapsFrom w ws then (raw, "table")
      else (stripped, "paragraph")

/-- Stable sort of a line's words by `x0` (`sorted(line_words, key=lambda w: w["x0"])`,
detect_headings.py line 155): insertion before the first strictly greater key keeps
equal keys in their original order. -/
def insertByX0 (w : Word) : List Word → List Word
  | [] => [w]
  | y :: ys => if w.x0 < y.x0 then w :: y :: ys else y :: insertByX0 w ys

def sortByX0 (l : List Word) : List Word := l.foldr insertByX0 []

/-- The line grouping of `extract_headings` (detect_headings.py lines 145-155):
bucket words by `round(top, 1)` (dict insertion order = first occurrence), iterate
the buckets by ascending key, and sort each bucket by `x0`. -/
def lineGroups (words : List Word) : List (Rat × List Word) :=
  (sortAsc (uniqKeys (words.map fun w => roundTo1 w.top))).map
    (fun k => (k, sortByX0 (words.filter fun w => roundTo1 w.top == k)))

/-- The body of the per-line loop of `extract_headings` (detect_headings.py lines
153-183): skip blank lines, coerce every word's size (raising on failure), take the
median, classify, and append a heading record tagged with `id = len(headings)`. -/
def processLine (body_size : Rat) (heading_sizes : List Rat) (size_tol : Rat)
    (p1 : Nat) (acc : List Heading) (k : Rat) (lws : List Word) :
    Except String (List Heading) :=
  let text := pyStrip (joinSpace (lws.map (fun w => w.text)))
  if text = "" then .ok acc
  else
    match lws.mapM (fun w => w.size) with
    | none => .error ("could not convert string to float")
    | some sizes =>
        let median := medianList sizes
        match line_heading_level text median body_size heading_sizes size_tol with
        | none => .ok acc
        | some level => .ok (acc ++ [⟨acc.length, p1, k, some level, median, text, none⟩])

/-- Iterate `processLine` over the ordered line buckets of one page. -/
def processLines (body_size : Rat) (heading_sizes : List Rat) (size_tol : Rat)
    (p1 : Nat) (acc : List Heading) :
    List (Rat × List Word) → Except String (List Heading)
  | [] => .ok acc
  | (k, lws) :: rest =>
      match processLine body_size heading_sizes size_tol p1 acc k lws with
      | .error e => .error e
      | .ok acc' => processLines body_size heading_sizes size_tol p1 acc' rest

/-- One page of the `extract_headings` scan; `p1` is the human-friendly 1-based
page number (detect_headings.py line 177). -/
def processPage (body_size : Rat) (heading_sizes : List Rat) (size_tol : Rat)
    (p1 : Nat) (acc : List Heading) (words : List Word) : Except String (List Heading) :=
  processLines body_size heading_sizes size_tol p1 acc (lineGroups words)

/-- The page loop of `extract_headings` (detect_headings.py lines 141-183);
`pIdx` is the 0-based index of the head of the remaining page list. -/
def processPages (body_size : Rat) (heading_sizes : List Rat) (size_tol : Rat) :
    Nat → List Heading → List (List Word) → Except String (List Heading)
  | _, acc, [] => .ok acc
  | pIdx, acc, pg :: rest =>
      match processPage body_size heading_sizes size_tol (pIdx + 1) acc pg with
      | .error e => .error e
      | .ok acc' => processPages body_size heading_sizes size_tol (pIdx + 1) acc' rest

/-- `extract_headings` up to (but not including) the final defensive sort of
detect_headings.py line 186: profile the fonts, then scan every page in range. -/
def extract_raw (pages : List (List Word)) (size_tol : Rat) (max_pages : Option Nat) :
    Except String (Rat × List Rat × List Heading) :=
  match analyze_font_sizes pages max_pages with
  | .error e => .error e
  | .ok (body_size, heading_sizes) =>
      match processPages body_size heading_sizes size_tol 0 [] (pagesScanned pages max_pages) with
      | .error e => .error e
      | .ok headings => .ok (body_size, heading_sizes, headings)

/-- `headings.sort(key=lambda h: (h["page"], h["top"]))` — the strict part of the
lexicographic comparison; the stable insertion sort below places a record after
every record it does not strictly precede. -/
def pageTopLt (a b : Heading) : Bool :=
  decide (a.page < b.page) || (decide (a.page = b.page) && decide (a.top < b.top))

def insertPT (x : Heading) : List Heading → List Heading
  | [] => [x]
  | y :: ys => if pageTopLt x y then x :: y :: ys else y :: insertPT x ys

/-- The final defensive sort of `extract_headings` (detect_headings.py line 186),
modelled as a stable insertion sort by `(page, top)`. -/
def sortByPageTop (l : List Heading) : List Heading := l.foldr insertPT []

def insertById (x : Heading) : List Heading → List Heading
  | [] => [x]
  | y :: ys => if x.id < y.id then x :: y :: ys else y :: insertById x ys

/-- Stable sort of a heading list by `id` (used to state the spec's
sort-by-id/sort-by-position agreement). -/
def sortById (l : List Heading) : List Heading := l.foldr insertById []

/-- `extract_headings` (detect_headings.py lines 119-187): the raw scan followed
by the defensive `(page, top)` sort. -/
def extract_headings (pages : List (List Word)) (size_tol : Rat) (max_pages : Option Nat) :
    Except String (Rat × List Rat × List Heading) :=
  match extract_raw pages size_tol max_pages with
  | .error e => .error e
  | .ok (body_size, heading_sizes, headings) =>
      .ok (body_size, heading_sizes, sortByPageTop headings)

/-- The terminator test of the span loop in `attach_section_html`
(detect_headings.py lines 325-332): a later record terminates the span when both
levels are numeric and the later level is ≤ the current one; records with a
missing level are skipped (`continue`). -/
def terminatesSpan (h nh : Heading) : Bool :=
  match h.level, nh.level with
  | some a, some b => decide (b ≤ a)
  | _, _ => false

/-- The end boundary `(end_page, end_top)` computed by `attach_section_html`
(detect_headings.py lines 321-332) for a heading `h` whose successor records in
flat-list order are `rest`: the first terminator's page and top, else the last
page of the document with no vertical bound. -/
def section_end (total_pages : Nat) (h : Heading) (rest : List Heading) :
    Nat × Option Rat :=
  match rest.find? (terminatesSpan h) with
  | some nh => (nh.page, some nh.top)
  | none => (total_pages, none)

/-- The full span `((start_page, min_top), (end_page, end_top))` a heading owns in
`attach_section_html`: content starts at `top + 0.5` on the heading's own page
(detect_headings.py line 340, skipping the heading line itself) and ends at
`section_end`. -/
def section_bounds (total_pages : Nat) (h : Heading) (rest : List Heading) :
    (Nat × Rat) × (Nat × Option Rat) :=
  ((h.page, h.top + 1/2), section_end total_pages h rest)

/-- A node of the outline tree built by `build_tree`: the heading record
(`node = dict(h)`) together with its ordered `children` list. -/
inductive HNode where
  | mk (rcd : Heading) (children : List HNode)

def HNode.rcd : HNode → Heading
  | .mk r _ => r

def HNode.children : HNode → List HNode
  | .mk _ cs => cs

mutual

/-- Pre-order traversal of a node: its record, then its children's traversals. -/
def flattenNode : HNode → List Heading
  | .mk r cs => r :: flattenForest cs

/-- Pre-order traversal of a forest. -/
def flattenForest : List HNode → List Heading
  | [] => []
  | n :: ns => flattenNode n ++ flattenForest ns

end

mutual

/-- All (parent record, child record) pairs inside one node. -/
def pairsNode : HNode → List (Heading × Heading)
  | .mk r cs => cs.map (fun c => (r, c.rcd)) ++ pairsForest cs

/-- All (parent record, child record) pairs inside a forest. -/
def pairsForest : List HNode → List (Heading × Heading)
  | [] => []
  | n :: ns => pairsNode n ++ pairsForest ns

end

/-- `level_value` (detect_headings.py lines 359-363): a numeric level, or
`float("inf")` (here `⊤` in `WithTop Int`) when the level is missing or not a
number. -/
def levelValue (h : Heading) : WithTop Int :=
  match h.level with
  | some n => (n : WithTop Int)
  | none => ⊤

/-
`build_tree` (detect_headings.py lines 349-382) mutates nodes through the stack
(`stack[-1]["children"].append(node)`), so nodes referenced from `tree` keep
receiving children after being appended.  The standard pure equivalent is a
stack of *frames* `(record, children so far)`: a node is materialised exactly
when its frame is popped — after which the Python object is never mutated again,
since a popped node is never `stack[-1]` any more — and is then appended either
to the children of the frame below or, when the stack has emptied, to the root
list.  At the end of the input the remaining frames are collapsed the same way.
The stack is kept top-first.
-/

/-- The `while stack and level_value(stack[-1]) >= current_level: stack.pop()`
loop (detect_headings.py line 372), together with the effect the pops have on
the materialised nodes. -/
def popWhileGE (lv : WithTop Int) (roots : List HNode)
    (stack : List (Heading × List HNode)) :
    List HNode × List (Heading × List HNode) :=
  match stack with
  | [] => (roots, [])
  | f :: rest =>
      if lv ≤ levelValue f.1 then
        match rest with
        | [] => (roots ++ [HNode.mk f.1 f.2], [])
        | g :: rest' => popWhileGE lv roots ((g.1, g.2 ++ [HNode.mk f.1 f.2]) :: rest')
      else (roots, f :: rest)
termination_by stack.length

/-- Processing of one heading in the `for h in headings` loop of `build_tree`
(detect_headings.py lines 365-380): pop the frames whose level is ≥ the current
one, then push a fresh frame holding a copy of the record with empty children. -/
def stepBT (st : List HNode × List (Heading × List HNode)) (h : Heading) :
    List HNode × List (Heading × List HNode) :=
  let (roots, stack) := popWhileGE (levelValue h) st.1 st.2
  (roots, (h, []) :: stack)

/-- Materialise the frames still open at the end of the input, bottom frames
becoming roots (the pure counterpart of Python's aliasing between `tree` and the
stack). -/
def collapseStack (roots : List HNode) (stack : List (Heading × List HNode)) :
    List HNode :=
  match stack with
  | [] => roots
  | [f] => roots ++ [HNode.mk f.1 f.2]
  | f :: g :: rest => collapseStack roots ((g.1, g.2 ++ [HNode.mk f.1 f.2]) :: rest)
termination_by stack.length

/-- `build_tree` (detect_headings.py lines 349-382). -/
def build_tree (headings : List Heading) : List HNode :=
  let (roots, stack) := headings.foldl stepBT ([], [])
  collapseStack roots stack

/-
Heap model of `build_tree`, used for the ownership/aliasing claim: Python dicts
are objects with identity, so `node = dict(h)` (line 366) versus sharing `h`
itself is observable through mutation.  Addresses are indices into an explicit
store; allocation appends to the store.  The input flat list is a list of
addresses of pre-existing records; `build_tree` allocates a fresh object per
record (`dict(h)` copies the scalar fields; `node["children"] = []` binds a
fresh list), and the only mutations (`children.append`) hit freshly allocated
objects.
-/

/-- A heap object: the record's scalar fields plus the `children` list of
addresses. -/
structure NodeObj where
  fields : Heading
  children : List Nat
deriving DecidableEq, Repr

instance : Inhabited NodeObj := ⟨⟨default, []⟩⟩

/-- One iteration of the `build_tree` loop in the heap model: allocate
`node = dict(h); node["children"] = []`, pop the stack while the top's level is
≥ the current level, then either append the fresh address to the roots or
mutate the `children` of the surviving top frame. -/
def stepHeap (st : List NodeObj × List Nat × List Nat) (a : Nat) :
    List NodeObj × List Nat × List Nat :=
  let σ := st.1
  let roots := st.2.1
  let stack := st.2.2
  let flds := (σ.getD a default).fields
  let b := σ.length
  let σ1 := σ ++ [⟨flds, []⟩]
  let lv := levelValue flds
  let stack1 := stack.dropWhile (fun t => lv ≤ levelValue ((σ1.getD t default).fields))
  match stack1 with
  | [] => (σ1, roots ++ [b], b :: stack1)
  | p :: rest =>
      let po := σ1.getD p default
      (σ1.set p ⟨po.fields, po.children ++ [b]⟩, roots, b :: p :: rest)

/-- `build_tree` in the heap model: returns the final store and the addresses of
the roots of the produced forest. -/
def build_tree_heap (σ₀ : List NodeObj) (input : List Nat) :
    List NodeObj × List Nat :=
  let res := input.foldl stepHeap (σ₀, [], [])
  (res.1, res.2.1)

/-! ## Concrete example data and invariant definitions used by the proofs -/

def hEx2a : Heading := ⟨0, 1, 100, some 2, 14, "", none⟩
def hEx3 : Heading := ⟨1, 1, 200, some 3, 14, "", none⟩
def hEx2b : Heading := ⟨2, 1, 300, some 2, 14, "", none⟩

def exBul : Word := ⟨"•", 0, 1, 0, some 10⟩
def exItem1 : Word := ⟨"a", 20, 21, 0, some 10⟩
def exItem2 : Word := ⟨"b", 40, 41, 0, some 10⟩
def exPlain : Word := ⟨"x", 0, 1, 0, some 10⟩

def pagesC7 : List (List Word) :=
  [[⟨"lorem", 0, 5, 100, some 10⟩, ⟨"ipsum", 10, 15, 100, some 10⟩,
    ⟨"dolor", 20, 25, 100, some 10⟩, ⟨"sit", 30, 33, 100, some 10⟩,
    ⟨"THE", 0, 3, 10, some 14⟩, ⟨"BIG", 5, 8, 10, some 14⟩,
    ⟨"TITLE", 10, 15, 10, some 14⟩]]

/-- Strict document order on heading records: earlier page, or same page and
strictly smaller top. -/
def PTlt (a b : Heading) : Prop :=
  a.page < b.page ∨ (a.page = b.page ∧ a.top < b.top)

/-- Ids are positional: the record stored at index `i` carries id `i`. -/
def IdsOk (l : List Heading) : Prop :=
  ∀ i h, l.get? i = some h → h.id = i

def pagesBad : List (List Word) := [[⟨"A", 0, 1, 0, some 12⟩, ⟨"B", 2, 3, 0, none⟩]]

/-- Pre-order contribution of one open frame: its record followed by the
traversal of the children attached so far. -/
def frameFlat (f : Heading × List HNode) : List Heading :=
  f.1 :: flattenForest f.2

/-- Pre-order contribution of the whole stack (top frame last, since the top
holds the most recently read records). -/
def stackFlat : List (Heading × List HNode) → List Heading
  | [] => []
  | f :: rest => stackFlat rest ++ frameFlat f

/-- Parent/child pairs already materialised inside one frame: the frame's
record is parent of each attached child's root, plus the pairs inside the
children. -/
def framePairs (f : Heading × List HNode) : List (Heading × Heading) :=
  f.2.map (fun n => (f.1, n.rcd)) ++ pairsForest f.2

def stackPairs : List (Heading × List HNode) → List (Heading × Heading)
  | [] => []
  | f :: rest => framePairs f ++ stackPairs rest

def statePairs (st : List HNode × List (Heading × List HNode)) :
    List (Heading × Heading) :=
  pairsForest st.1 ++ stackPairs st.2

/-- The property every parent/child pair of the final forest satisfies,
relative to the list `pre` of records read so far: the parent's level is
strictly lower, the parent precedes the child in `pre`, and everything strictly
between them has level at least the child's — i.e. the parent is the nearest
preceding record of strictly lower level. -/
def PairProp (pre : List Heading) (p c : Heading) : Prop :=
  levelValue p < levelValue c ∧
  ∃ l mid r, pre = l ++ p :: (mid ++ c :: r) ∧
    ∀ x ∈ mid, levelValue c ≤ levelValue x

/-- Stack levels are strictly increasing from the bottom to the top of the
stack (the list is top-first, so increasing towards the head). -/
def StackOrdered (stack : List (Heading × List HNode)) : Prop :=
  List.Pairwise (fun f g => levelValue g.1 < levelValue f.1) stack

/-- Every record inside the children of a non-top frame has level at least the
level of the frame directly above it (those children were attached while that
upper part of the stack was being built). -/
def ChildrenBound : List (Heading × List HNode) → Prop
  | [] => True
  | [_] => True
  | f :: g :: rest =>
      (∀ x ∈ flattenForest g.2, levelValue f.1 ≤ levelValue x) ∧
      ChildrenBound (g :: rest)

/-- During the pops triggered by a record of level `lv`, every record inside
the top frame's children has level at least `lv`. -/
def TopBound (lv : WithTop Int) : List (Heading × List HNode) → Prop
  | [] => True
  | f :: _ => ∀ x ∈ flattenForest f.2, lv ≤ levelValue x

/-- Between two input records, the top frame (just pushed) has no children
yet. -/
def TopEmpty : List (Heading × List HNode) → Prop
  | [] => True
  | f :: _ => f.2 = []

/-- The invariant maintained by the stack walk: the traversal of the state is
exactly the prefix read so far, the stack is level-ordered, children are
bounded by the frame above, every materialised pair satisfies `PairProp`, and
every record read so far is either a child in a pair, a completed root, or an
open frame. -/
def WalkInv (pre : List Heading) (st : List HNode × List (Heading × List HNode)) : Prop :=
  (flattenForest st.1 ++ stackFlat st.2 = pre) ∧
  StackOrdered st.2 ∧
  ChildrenBound st.2 ∧
  (∀ pc ∈ statePairs st, PairProp pre pc.1 pc.2) ∧
  (∀ x ∈ pre, (∃ p, (p, x) ∈ statePairs st) ∨
      x ∈ st.1.map HNode.rcd ∨ x ∈ st.2.map (fun f => f.1))

def hW2 : Heading := ⟨0, 1, 0, some 2, 0, "", none⟩
def hW4 : Heading := ⟨1, 1, 1, some 4, 0, "", none⟩
def hWnone : Heading := ⟨1, 1, 1, none, 0, "", none⟩

/-- Invariant of the heap walk: the original region of the store is untouched,
all root and stack addresses are fresh (allocated at or above `σ₀.length`), and
every fresh object has fresh children and fields copied from some input
record's fields as they were in the initial store. -/
def HeapInv (σ₀ : List NodeObj) (input : List Nat)
    (st : List NodeObj × List Nat × List Nat) : Prop :=
  σ₀.length ≤ st.1.length ∧
  (∀ i, i < σ₀.length → st.1.get? i = σ₀.get? i) ∧
  (∀ r ∈ st.2.1, σ₀.length ≤ r ∧ r < st.1.length) ∧
  (∀ t ∈ st.2.2, σ₀.length ≤ t ∧ t < st.1.length) ∧
  (∀ b, σ₀.length ≤ b → ∀ o, st.1.get? b = some o →
      (∀ ch ∈ o.children, σ₀.length ≤ ch ∧ ch < st.1.length) ∧
      ∃ a ∈ input, ∃ o₀, σ₀.get? a = some o₀ ∧ o.fields = o₀.fields)

def heapEx : List NodeObj := [⟨hW2, []⟩, ⟨hW4, []⟩]

/-! ## Helper lemmas -/

/-- Characterisation of a successful `List.find?`: the hit satisfies the
predicate and is the first element of the list to do so. -/
theorem find?_eq_some_split {α : Type} (p : α → Bool) (l : List α) (a : α)
    (h : l.find? p = some a) :
    p a = true ∧ ∃ l1 l2, l = l1 ++ a :: l2 ∧ ∀ x ∈ l1, p x = false := by
  induction l with
  | nil => simp at h
  | cons x xs ih =>
      by_cases hx : p x
      · rw [List.find?_cons_of_pos _ hx] at h
        cases h
        exact ⟨hx, [], xs, rfl, by simp⟩
      · rw [List.find?_cons_of_neg _ (by simpa using hx)] at h
        obtain ⟨hpa, l1, l2, hsplit, hall⟩ := ih h
        refine ⟨hpa, x :: l1, l2, by rw [hsplit]; rfl, ?_⟩
        intro y hy
        rcases List.mem_cons.mp hy with hy | hy
        · subst hy; simpa using hx
        · exact hall y hy

/-- `terminatesSpan h x` holds exactly when both levels are numeric and `x`'s
level is at most `h`'s. -/
theorem terminatesSpan_iff (h x : Heading) (L : Int) (hL : h.level = some L) :
    terminatesSpan h x = true ↔ ∃ M, x.level = some M ∧ M ≤ L := by
  unfold terminatesSpan
  rw [hL]
  cases hx : x.level with
  | none => simp
  | some M => simp

/-! ## Claim C1 — section spans attached by `attach_section_html` -/

/-- Claim C1: the content span of a heading `h` (with successor records `rest`
in flat-list order) starts just after `h`'s own line on `h`'s page
(`top + 0.5`), and ends immediately before the first later record in list order
whose level is ≤ `h`'s level — records of strictly greater (or missing) level do
not terminate it; when no such record exists the span runs to the last page of
the document with no vertical bound. -/
theorem C1_section_span (total_pages : Nat) (h : Heading) (rest : List Heading)
    (L : Int) (hL : h.level = some L) :
    (∀ nh, rest.find? (terminatesSpan h) = some nh →
        section_bounds total_pages h rest =
          ((h.page, h.top + 1/2), (nh.page, some nh.top)) ∧
        (∃ M, nh.level = some M ∧ M ≤ L) ∧
        ∃ l1 l2, rest = l1 ++ nh :: l2 ∧
          ∀ x ∈ l1, ∀ M, x.level = some M → L < M)
    ∧ (rest.find? (terminatesSpan h) = none →
        section_bounds total_pages h rest =
          ((h.page, h.top + 1/2), (total_pages, none))) := by
  constructor
  · intro nh hfind
    obtain ⟨hp, l1, l2, hsplit, hall⟩ := find?_eq_some_split _ _ _ hfind
    refine ⟨?_, (terminatesSpan_iff h nh L hL).mp hp, l1, l2, hsplit, ?_⟩
    · unfold section_bounds section_end
      rw [hfind]
    · intro x hx M hM
      have hfalse := hall x hx
      by_contra hnot
      have : terminatesSpan h x = true :=
        (terminatesSpan_iff h x L hL).mpr ⟨M, hM, by omega⟩
      rw [this] at hfalse
      exact Bool.noConfusion hfalse
  · intro hfind
    unfold section_bounds section_end
    rw [hfind]

/-- Witness for C1 on the spec's example list
`[(level 2, top 100), (level 3, top 200), (level 2, top 300)]`: the level-3
heading's span ends at top 300 on page 1, and so does the first level-2
heading's (the level-3 record does not terminate it). -/
theorem C1_section_span_witness :
    section_bounds 5 hEx3 [hEx2b] =
      ((hEx3.page, hEx3.top + 1/2), (hEx2b.page, some hEx2b.top)) ∧
    section_bounds 5 hEx2a [hEx3, hEx2b] =
      ((hEx2a.page, hEx2a.top + 1/2), (hEx2b.page, some hEx2b.top)) :=
  ⟨((C1_section_span 5 hEx3 [hEx2b] 3 rfl).1 hEx2b (by with_unfolding_all decide)).1,
   ((C1_section_span 5 hEx2a [hEx3, hEx2b] 2 rfl).1 hEx2b (by with_unfolding_all decide)).1⟩

/-! ## Claim C2 — priority of bullet versus table classification -/

/-- Counterexample to claim C2: this line's reconstruction inserts two gaps
strictly above the 14-unit threshold, yet because its first character is the
bullet glyph `•`, `assemble_line` types it `"bullet"`, not `"table"` — bullet
detection fires first (detect_headings.py lines 216-220). -/
theorem C2_counterexample :
    2 ≤ largeGapsFrom exBul [exItem1, exItem2] ∧
    startsWithBullet (pyStrip (exBul.text ++ rawFrom exBul [exItem1, exItem2])) = true ∧
    (assemble_line [exBul, exItem1, exItem2]).2 = "bullet" ∧
    (assemble_line [exBul, exItem1, exItem2]).2 ≠ "table" := by
  refine ⟨?_, ?_, ?_, ?_⟩ <;> with_unfolding_all decide

/-- Claim C2 (amended): a non-blank line whose reconstruction inserts at least
two large gaps is typed `"table"` only when its first non-whitespace character
is not a bullet glyph; when it is, the line is typed `"bullet"` — bullet
detection takes priority over table-gap detection in `assemble_line`. -/
theorem C2_bullet_priority (w : Word) (ws : List Word)
    (hstr : pyStrip (w.text ++ rawFrom w ws) ≠ "")
    (hgap : 2 ≤ largeGapsFrom w ws) :
    (assemble_line (w :: ws)).2 =
      if startsWithBullet (pyStrip (w.text ++ rawFrom w ws)) then "bullet"
      else "table" := by
  have h1 : assemble_line (w :: ws) =
      (if pyStrip (w.text ++ rawFrom w ws) = "" then ("", "blank")
       else if startsWithBullet (pyStrip (w.text ++ rawFrom w ws)) then
         (pyStrip (w.text ++ rawFrom w ws), "bullet")
       else if 2 ≤ largeGapsFrom w ws then (w.text ++ rawFrom w ws, "table")
       else (pyStrip (w.text ++ rawFrom w ws), "paragraph")) := rfl
  rw [h1, if_neg hstr]
  by_cases hb : startsWithBullet (pyStrip (w.text ++ rawFrom w ws)) = true
  · rw [if_pos hb, if_pos hb]
  · rw [if_neg hb, if_neg hb, if_pos hgap]

/-- Witness for the amended C2: with a bullet first character the example line
of the counterexample is typed `"bullet"`; the same geometry with a plain first
character is typed `"table"`. -/
theorem C2_bullet_priority_witness :
    (assemble_line [exBul, exItem1, exItem2]).2 = "bullet" ∧
    (assemble_line [exPlain, exItem1, exItem2]).2 = "table" :=
  ⟨(C2_bullet_priority exBul [exItem1, exItem2] (by with_unfolding_all decide)
      (by with_unfolding_all decide)).trans (by with_unfolding_all decide),
   (C2_bullet_priority exPlain [exItem1, exItem2] (by with_unfolding_all decide)
      (by with_unfolding_all decide)).trans (by with_unfolding_all decide)⟩

/-! ## Claim C4 — heading classification and the 160-character exclusion -/

/-- A successful tier scan finds the first heading size within tolerance:
`firstTier` started at `j` returns `j + i` where `i` is the least index (in the
remaining list) whose size is within `size_tol` of the median. -/
theorem firstTier_eq_some (median size_tol : Rat) (l : List Rat) (j t : Nat) :
    firstTier median size_tol j l = some t ↔
      ∃ i, t = j + i ∧ (∃ h, l.get? i = some h ∧ |median - h| ≤ size_tol) ∧
        ∀ k h', k < i → l.get? k = some h' → size_tol < |median - h'| := by
  induction l generalizing j t with
  | nil => simp [firstTier]
  | cons h rest ih =>
      unfold firstTier
      by_cases hcl : |median - h| ≤ size_tol
      · rw [if_pos hcl]
        constructor
        · intro heq
          cases heq
          exact ⟨0, by omega, ⟨h, rfl, hcl⟩,
            fun k h' hk _ => absurd hk (Nat.not_lt_zero k)⟩
        · rintro ⟨i, rfl, ⟨h', hget, hclose⟩, hmin⟩
          cases i with
          | zero => rfl
          | succ i' =>
              exact absurd hcl (not_le.mpr (hmin 0 h (Nat.succ_pos i') rfl))
      · rw [if_neg hcl, ih (j + 1) t]
        constructor
        · rintro ⟨i, rfl, ⟨h', hget, hclose⟩, hmin⟩
          refine ⟨i + 1, by omega, ⟨h', hget, hclose⟩, ?_⟩
          intro k h'' hk hget''
          cases k with
          | zero =>
              have hh : h = h'' := by simpa using hget''
              subst hh
              exact not_le.mp hcl
          | succ k' => exact hmin k' h'' (by omega) hget''
        · rintro ⟨i, hti, ⟨h', hget, hclose⟩, hmin⟩
          cases i with
          | zero =>
              have hh : h = h' := by simpa using hget
              subst hh
              exact absurd hclose hcl
          | succ i' =>
              refine ⟨i', by omega, ⟨h', hget, hclose⟩, ?_⟩
              intro k h'' hk hget''
              exact hmin (k + 1) h'' (by omega) hget''

/-- A failed tier scan means no heading size is within tolerance. -/
theorem firstTier_eq_none (median size_tol : Rat) (l : List Rat) (j : Nat) :
    firstTier median size_tol j l = none ↔
      ∀ i h, l.get? i = some h → size_tol < |median - h| := by
  induction l generalizing j with
  | nil => simp [firstTier]
  | cons h rest ih =>
      unfold firstTier
      by_cases hcl : |median - h| ≤ size_tol
      · rw [if_pos hcl]
        constructor
        · intro heq; exact Option.noConfusion heq
        · intro hall
          exact absurd hcl (not_le.mpr (hall 0 h rfl))
      · rw [if_neg hcl, ih (j + 1)]
        constructor
        · intro hall i h' hget
          cases i with
          | zero =>
              have hh : h = h' := by simpa using hget
              subst hh
              exact not_le.mp hcl
          | succ i' => exact hall i' h' hget
        · intro hall i h' hget
          exact hall (i + 1) h' hget

/-- Claim C4: a line is recorded as a heading iff its median font size is
within `size_tol` (0.6 by default) of some entry of `heading_sizes` — the first
matching tier in the profiler's order — and its text has at most 160
characters.  The level is 1 for tier 1, else 2 on an `^\d+\.\s+[A-Z0-9 ,()/\-]+$`
match, else 3 on a `^\d+\.\d+` match, else the fallback `2 + (tier - 2)`
(written `i + 1` below for the 0-based index `i = tier - 1`).  A line longer
than 160 characters is never recorded, and a line matching no tier is never
recorded. -/
theorem C4_heading_rule (text : String) (median body_size size_tol : Rat)
    (heading_sizes : List Rat) :
    (160 < text.length →
        line_heading_level text median body_size heading_sizes size_tol = none) ∧
    (firstTier median size_tol 1 heading_sizes = none →
        line_heading_level text median body_size heading_sizes size_tol = none) ∧
    (∀ lv, line_heading_level text median body_size heading_sizes size_tol = some lv ↔
        text.length ≤ 160 ∧
        ∃ i h, heading_sizes.get? i = some h ∧ |median - h| ≤ size_tol ∧
          (∀ k h', k < i → heading_sizes.get? k = some h' → size_tol < |median - h'|) ∧
          lv = if i = 0 then 1
               else if upperSectionMatch (pyStrip text) then 2
               else if subsectionMatch (pyStrip text) then 3
               else (i : Int) + 1) := by
  have hnone : firstTier median size_tol 1 heading_sizes = none →
      line_heading_level text median body_size heading_sizes size_tol = none := by
    intro h
    unfold line_heading_level classify_line_level
    rw [h]
  have hclass : ∀ t : Nat, firstTier median size_tol 1 heading_sizes = some t →
      line_heading_level text median body_size heading_sizes size_tol =
        if 160 < text.length then none
        else some (if t = 1 then 1
          else if upperSectionMatch (pyStrip text) then 2
          else if subsectionMatch (pyStrip text) then 3
          else 2 + ((t : Int) - 2)) := by
    intro t ht
    unfold line_heading_level classify_line_level
    rw [ht]
    dsimp only
    split_ifs <;> rfl
  refine ⟨?_, hnone, ?_⟩
  · intro hlen
    cases hft : firstTier median size_tol 1 heading_sizes with
    | none => exact hnone hft
    | some t => rw [hclass t hft, if_pos hlen]
  · intro lv
    constructor
    · intro hsome
      cases hft : firstTier median size_tol 1 heading_sizes with
      | none =>
          rw [hnone hft] at hsome
          exact Option.noConfusion hsome
      | some t =>
          rw [hclass t hft] at hsome
          by_cases hlen : 160 < text.length
          · rw [if_pos hlen] at hsome
            exact Option.noConfusion hsome
          · rw [if_neg hlen] at hsome
            obtain ⟨i0, hi0, ⟨h0, hget0, hclose0⟩, hmin0⟩ :=
              (firstTier_eq_some median size_tol heading_sizes 1 t).mp hft
            have hlv := Option.some.inj hsome
            subst hi0
            refine ⟨by omega, i0, h0, hget0, hclose0, hmin0, ?_⟩
            rw [← hlv]
            by_cases hi : i0 = 0
            · subst hi; rfl
            · rw [if_neg (by omega : ¬1 + i0 = 1), if_neg hi]
              by_cases hA : upperSectionMatch (pyStrip text) = true
              · rw [if_pos hA, if_pos hA]
              · rw [if_neg hA, if_neg hA]
                by_cases hB : subsectionMatch (pyStrip text) = true
                · rw [if_pos hB, if_pos hB]
                · rw [if_neg hB, if_neg hB]
                  push_cast
                  ring
    · rintro ⟨hlen, i, h, hget, hclose, hmin, hlv⟩
      have hft : firstTier median size_tol 1 heading_sizes = some (1 + i) :=
        (firstTier_eq_some median size_tol heading_sizes 1 (1 + i)).mpr
          ⟨i, rfl, ⟨h, hget, hclose⟩, hmin⟩
      rw [hclass _ hft, if_neg (by omega)]
      congr 1
      rw [hlv]
      by_cases hi : i = 0
      · subst hi; rfl
      · rw [if_neg (by omega : ¬1 + i = 1), if_neg hi]
        by_cases hA : upperSectionMatch (pyStrip text) = true
        · rw [if_pos hA, if_pos hA]
        · rw [if_neg hA, if_neg hA]
          by_cases hB : subsectionMatch (pyStrip text) = true
          · rw [if_pos hB, if_pos hB]
          · rw [if_neg hB, if_neg hB]
            push_cast
            ring

/-- Witness for C4: with heading sizes `[20, 14]` and median 14, the line
`"2.1 Overview"` matches the second tier and the subsection pattern, so it is
recorded at level 3. -/
theorem C4_heading_rule_witness :
    line_heading_level "2.1 Overview" 14 10 [20, 14] (3/5) = some 3 :=
  ((C4_heading_rule "2.1 Overview" 14 10 (3/5) [20, 14]).2.2 3).mpr
    ⟨by with_unfolding_all decide, 1, 14, rfl, by with_unfolding_all decide,
     by
       intro k h' hk hget
       have hk0 : k = 0 := by omega
       subst hk0
       have hh : (20 : Rat) = h' := by simpa using hget
       subst hh
       with_unfolding_all decide,
     by with_unfolding_all decide⟩

/-! ## Claim C7 — the document font profile -/

/-- Membership in `uniqAux`: exactly the elements of the input not already
seen. -/
theorem mem_uniqAux (x : Rat) (l : List Rat) :
    ∀ seen, x ∈ uniqAux seen l ↔ x ∈ l ∧ x ∉ seen := by
  induction l with
  | nil => intro seen; simp [uniqAux]
  | cons y ys ih =>
      intro seen
      unfold uniqAux
      by_cases hy : y ∈ seen
      · rw [if_pos hy, ih seen]
        constructor
        · rintro ⟨hx, hns⟩
          exact ⟨List.mem_cons_of_mem y hx, hns⟩
        · rintro ⟨hx, hns⟩
          rcases List.mem_cons.mp hx with hx | hx
          · subst hx; exact absurd hy hns
          · exact ⟨hx, hns⟩
      · rw [if_neg hy]
        constructor
        · intro hx
          rcases List.mem_cons.mp hx with hx | hx
          · subst hx; exact ⟨List.mem_cons_self x ys, hy⟩
          · obtain ⟨h1, h2⟩ := (ih (y :: seen)).mp hx
            exact ⟨List.mem_cons_of_mem y h1,
              fun hmem => h2 (List.mem_cons_of_mem y hmem)⟩
        · rintro ⟨hx, hns⟩
          rcases List.mem_cons.mp hx with hx | hx
          · subst hx; exact List.mem_cons_self x _
          · by_cases hxy : x = y
            · subst hxy; exact List.mem_cons_self x _
            · exact List.mem_cons_of_mem y
                ((ih (y :: seen)).mpr ⟨hx, by
                  intro hmem
                  rcases List.mem_cons.mp hmem with hh | hh
                  · exact hxy hh
                  · exact hns hh⟩)

/-- `uniqAux` never repeats a key. -/
theorem nodup_uniqAux (l : List Rat) : ∀ seen, (uniqAux seen l).Nodup := by
  induction l with
  | nil => intro seen; simp [uniqAux]
  | cons y ys ih =>
      intro seen
      unfold uniqAux
      by_cases hy : y ∈ seen
      · rw [if_pos hy]; exact ih seen
      · rw [if_neg hy]
        refine List.nodup_cons.mpr ⟨?_, ih (y :: seen)⟩
        intro hmem
        exact ((mem_uniqAux y ys (y :: seen)).mp hmem).2 (List.mem_cons_self y seen)

theorem mem_uniqKeys (x : Rat) (l : List Rat) : x ∈ uniqKeys l ↔ x ∈ l := by
  unfold uniqKeys
  rw [mem_uniqAux]
  simp

theorem nodup_uniqKeys (l : List Rat) : (uniqKeys l).Nodup := nodup_uniqAux l []

/-- Python's `max(..., key=f)` returns an element of the list whose key bounds
every other key. -/
theorem maxByFirst_spec (f : Rat → Nat) (xs : List Rat) :
    ∀ x, maxByFirst f x xs ∈ x :: xs ∧ ∀ y ∈ x :: xs, f y ≤ f (maxByFirst f x xs) := by
  induction xs with
  | nil =>
      intro x
      refine ⟨List.mem_cons_self x [], ?_⟩
      intro y hy
      rcases List.mem_cons.mp hy with hy | hy
      · subst hy; exact le_refl _
      · exact absurd hy (List.not_mem_nil y)
  | cons z zs ih =>
      intro x
      have hstep : maxByFirst f x (z :: zs) = maxByFirst f (if f x < f z then z else x) zs := rfl
      by_cases h : f x < f z
      · rw [hstep, if_pos h]
        obtain ⟨hmem, hbound⟩ := ih z
        constructor
        · rcases List.mem_cons.mp hmem with hm | hm
          · rw [hm]; exact List.mem_cons_of_mem x (List.mem_cons_self z zs)
          · exact List.mem_cons_of_mem x (List.mem_cons_of_mem z hm)
        · intro y hy
          rcases List.mem_cons.mp hy with hy | hy
          · subst hy
            exact le_trans (le_of_lt h) (hbound z (List.mem_cons_self z zs))
          · exact hbound y hy
      · rw [hstep, if_neg h]
        obtain ⟨hmem, hbound⟩ := ih x
        constructor
        · rcases List.mem_cons.mp hmem with hm | hm
          · rw [hm]; exact List.mem_cons_self x _
          · exact List.mem_cons_of_mem x (List.mem_cons_of_mem z hm)
        · intro y hy
          rcases List.mem_cons.mp hy with hy | hy
          · rw [hy]; exact hbound x (List.mem_cons_self x zs)
          · rcases List.mem_cons.mp hy with hy | hy
            · subst hy
              exact le_trans (not_lt.mp h) (hbound x (List.mem_cons_self x zs))
            · exact hbound y (List.mem_cons_of_mem x hy)

theorem insertDesc_perm (x : Rat) (l : List Rat) :
    List.Perm (insertDesc x l) (x :: l) := by
  induction l with
  | nil => exact List.Perm.refl _
  | cons y ys ih =>
      unfold insertDesc
      by_cases h : y < x
      · rw [if_pos h]
      · rw [if_neg h]
        exact List.Perm.trans (ih.cons y) (List.Perm.swap x y ys)

theorem sortDesc_perm (l : List Rat) : List.Perm (sortDesc l) l := by
  induction l with
  | nil => exact List.Perm.refl _
  | cons x xs ih =>
      have h : sortDesc (x :: xs) = insertDesc x (sortDesc xs) := rfl
      rw [h]
      exact List.Perm.trans (insertDesc_perm x (sortDesc xs)) (ih.cons x)

theorem insertDesc_pairwise (x : Rat) (l : List Rat)
    (h : List.Pairwise (fun a b : Rat => b ≤ a) l) :
    List.Pairwise (fun a b : Rat => b ≤ a) (insertDesc x l) := by
  induction l with
  | nil => simp [insertDesc]
  | cons y ys ih =>
      unfold insertDesc
      obtain ⟨hhead, htail⟩ := List.pairwise_cons.mp h
      by_cases hlt : y < x
      · rw [if_pos hlt]
        refine List.pairwise_cons.mpr ⟨?_, h⟩
        intro z hz
        rcases List.mem_cons.mp hz with hz | hz
        · subst hz; exact le_of_lt hlt
        · exact le_trans (hhead z hz) (le_of_lt hlt)
      · rw [if_neg hlt]
        refine List.pairwise_cons.mpr ⟨?_, ih htail⟩
        intro z hz
        have hz' := (insertDesc_perm x ys).mem_iff.mp hz
        rcases List.mem_cons.mp hz' with hz' | hz'
        · subst hz'; exact not_lt.mp hlt
        · exact hhead z hz'

theorem sortDesc_pairwise (l : List Rat) :
    List.Pairwise (fun a b : Rat => b ≤ a) (sortDesc l) := by
  induction l with
  | nil => simp [sortDesc]
  | cons x xs ih => exact insertDesc_pairwise x (sortDesc xs) ih

/-- Claim C7: when the scanned pages contain at least one parseable font size,
`analyze_font_sizes` succeeds; the returned `body_size` is a rounded size of
maximal frequency, and `heading_sizes` contains exactly the distinct rounded
sizes strictly greater than `body_size + 0.5` occurring at least 3 times,
without duplicates and sorted strictly descending; consequently `body_size` is
strictly below every entry of `heading_sizes`. -/
theorem C7_font_profile (pages : List (List Word)) (sample_pages : Option Nat)
    (hne : sizeList pages sample_pages ≠ []) :
    ∃ body_size heading_sizes,
      analyze_font_sizes pages sample_pages = .ok (body_size, heading_sizes) ∧
      body_size ∈ sizeList pages sample_pages ∧
      (∀ s ∈ sizeList pages sample_pages,
          sizeCount pages sample_pages s ≤ sizeCount pages sample_pages body_size) ∧
      (∀ s, s ∈ heading_sizes ↔
          s ∈ sizeList pages sample_pages ∧ body_size + 1/2 < s ∧
            3 ≤ sizeCount pages sample_pages s) ∧
      heading_sizes.Nodup ∧
      List.Pairwise (fun a b : Rat => b < a) heading_sizes ∧
      (∀ s ∈ heading_sizes, body_size < s) := by
  cases huk : uniqKeys (sizeList pages sample_pages) with
  | nil =>
      exfalso
      apply hne
      cases hsz : sizeList pages sample_pages with
      | nil => rfl
      | cons a as =>
          rw [hsz] at huk
          unfold uniqKeys uniqAux at huk
          simp at huk
  | cons k ks =>
      refine ⟨maxByFirst (fun s => (sizeList pages sample_pages).count s) k ks,
        sortDesc ((k :: ks).filter (fun s =>
          decide (maxByFirst (fun s => (sizeList pages sample_pages).count s) k ks
              + 1/2 < s) &&
          decide (3 ≤ (sizeList pages sample_pages).count s))),
        ?_, ?_, ?_, ?_, ?_, ?_, ?_⟩
      case _ =>
        unfold analyze_font_sizes
        dsimp only
        rw [huk]
      case _ =>
        have hm := (maxByFirst_spec (fun s => (sizeList pages sample_pages).count s) ks k).1
        rw [← huk] at hm
        exact (mem_uniqKeys _ _).mp hm
      case _ =>
        intro s hs
        have hs' : s ∈ k :: ks := by
          rw [← huk]; exact (mem_uniqKeys s _).mpr hs
        exact (maxByFirst_spec (fun s => (sizeList pages sample_pages).count s) ks k).2 s hs'
      case _ =>
        intro s
        rw [List.Perm.mem_iff (sortDesc_perm _), List.mem_filter]
        constructor
        · rintro ⟨hmem, hcond⟩
          rw [← huk] at hmem
          simp only [Bool.and_eq_true, decide_eq_true_eq] at hcond
          exact ⟨(mem_uniqKeys s _).mp hmem, hcond.1, hcond.2⟩
        · rintro ⟨hmem, h1, h2⟩
          refine ⟨by rw [← huk]; exact (mem_uniqKeys s _).mpr hmem, ?_⟩
          simp only [Bool.and_eq_true, decide_eq_true_eq]
          exact ⟨h1, h2⟩
      case _ =>
        rw [List.Perm.nodup_iff (sortDesc_perm _)]
        refine List.Nodup.filter _ ?_
        rw [← huk]
        exact nodup_uniqKeys _
      case _ =>
        have h1 : List.Pairwise (fun a b : Rat => b ≤ a)
            (sortDesc ((k :: ks).filter (fun s =>
              decide (maxByFirst (fun s => (sizeList pages sample_pages).count s) k ks
                  + 1/2 < s) &&
              decide (3 ≤ (sizeList pages sample_pages).count s)))) := sortDesc_pairwise _
        have h2 : (sortDesc ((k :: ks).filter (fun s =>
              decide (maxByFirst (fun s => (sizeList pages sample_pages).count s) k ks
                  + 1/2 < s) &&
              decide (3 ≤ (sizeList pages sample_pages).count s)))).Nodup := by
          rw [List.Perm.nodup_iff (sortDesc_perm _)]
          refine List.Nodup.filter _ ?_
          rw [← huk]
          exact nodup_uniqKeys _
        have h2' : List.Pairwise (fun a b : Rat => a ≠ b)
            (sortDesc ((k :: ks).filter (fun s =>
              decide (maxByFirst (fun s => (sizeList pages sample_pages).count s) k ks
                  + 1/2 < s) &&
              decide (3 ≤ (sizeList pages sample_pages).count s)))) := h2
        exact (h1.and h2').imp (fun hab => lt_of_le_of_ne hab.1 (Ne.symm hab.2))
      case _ =>
        intro s hs
        rw [List.Perm.mem_iff (sortDesc_perm _), List.mem_filter] at hs
        obtain ⟨-, hcond⟩ := hs
        simp only [Bool.and_eq_true, decide_eq_true_eq] at hcond
        linarith [hcond.1]

/-- Witness for C7 on a one-page document with four words of size 10 and three
of size 14: the profiler succeeds with `body_size = 10` and the returned body
size is a size occurring in the document. -/
theorem C7_font_profile_witness :
    analyze_font_sizes pagesC7 none = .ok ((10 : Rat), [(14 : Rat)]) ∧
    (10 : Rat) ∈ sizeList pagesC7 none := by
  obtain ⟨b, hs, h1, h2, h3, h4, h5, h6, h7⟩ :=
    C7_font_profile pagesC7 none (by with_unfolding_all decide)
  have hval : analyze_font_sizes pagesC7 none = .ok ((10 : Rat), [(14 : Rat)]) := by
    with_unfolding_all rfl
  have hbs : ((b, hs) : Rat × List Rat) = ((10 : Rat), [(14 : Rat)]) :=
    Except.ok.inj (h1.symm.trans hval)
  have hb : b = (10 : Rat) := congrArg Prod.fst hbs
  subst hb
  exact ⟨hval, h2⟩

/-! ## Claim C8 — extraction order, ids, and the defensive sort -/

theorem pageTopLt_iff (a b : Heading) : pageTopLt a b = true ↔ PTlt a b := by
  unfold pageTopLt PTlt
  simp only [Bool.or_eq_true, Bool.and_eq_true, decide_eq_true_eq]

theorem IdsOk_append_one (acc : List Heading) (h : Heading)
    (hacc : IdsOk acc) (hid : h.id = acc.length) : IdsOk (acc ++ [h]) := by
  intro i x hget
  rcases Nat.lt_trichotomy i acc.length with hlt | heq | hgt
  · rw [List.get?_append hlt] at hget
    exact hacc i x hget
  · subst heq
    rw [List.get?_append_right (le_refl _)] at hget
    simp at hget
    rw [← hget]
    exact hid
  · rw [List.get?_append_right (le_of_lt hgt)] at hget
    have : i - acc.length ≠ 0 := by omega
    cases hi : i - acc.length with
    | zero => exact absurd hi this
    | succ n => rw [hi] at hget; simp at hget

theorem insertAsc_perm (x : Rat) (l : List Rat) :
    List.Perm (insertAsc x l) (x :: l) := by
  induction l with
  | nil => exact List.Perm.refl _
  | cons y ys ih =>
      unfold insertAsc
      by_cases h : x < y
      · rw [if_pos h]
      · rw [if_neg h]
        exact List.Perm.trans (ih.cons y) (List.Perm.swap x y ys)

theorem sortAsc_perm (l : List Rat) : List.Perm (sortAsc l) l := by
  induction l with
  | nil => exact List.Perm.refl _
  | cons x xs ih =>
      have h : sortAsc (x :: xs) = insertAsc x (sortAsc xs) := rfl
      rw [h]
      exact List.Perm.trans (insertAsc_perm x (sortAsc xs)) (ih.cons x)

theorem insertAsc_pairwise (x : Rat) (l : List Rat)
    (h : List.Pairwise (fun a b : Rat => a ≤ b) l) :
    List.Pairwise (fun a b : Rat => a ≤ b) (insertAsc x l) := by
  induction l with
  | nil => simp [insertAsc]
  | cons y ys ih =>
      unfold insertAsc
      obtain ⟨hhead, htail⟩ := List.pairwise_cons.mp h
      by_cases hlt : x < y
      · rw [if_pos hlt]
        refine List.pairwise_cons.mpr ⟨?_, h⟩
        intro z hz
        rcases List.mem_cons.mp hz with hz | hz
        · rw [hz]; exact le_of_lt hlt
        · exact le_trans (le_of_lt hlt) (hhead z hz)
      · rw [if_neg hlt]
        refine List.pairwise_cons.mpr ⟨?_, ih htail⟩
        intro z hz
        have hz' := (insertAsc_perm x ys).mem_iff.mp hz
        rcases List.mem_cons.mp hz' with hz' | hz'
        · rw [hz']; exact not_lt.mp hlt
        · exact hhead z hz'

theorem sortAsc_pairwise (l : List Rat) :
    List.Pairwise (fun a b : Rat => a ≤ b) (sortAsc l) := by
  induction l with
  | nil => simp [sortAsc]
  | cons x xs ih => exact insertAsc_pairwise x (sortAsc xs) ih

/-- The keys a page's words are bucketed under are strictly increasing: they are
the distinct rounded tops, sorted. -/
theorem lineGroups_keys_strict (words : List Word) :
    List.Pairwise (fun a b : Rat => a < b) ((lineGroups words).map Prod.fst) := by
  have hmap : ∀ (f : Rat → List Word) (ks : List Rat),
      (ks.map (fun k => (k, f k))).map Prod.fst = ks := by
    intro f ks
    induction ks with
    | nil => rfl
    | cons a as iha =>
        simp only [List.map_cons]
        rw [iha]
  have hkeys : (lineGroups words).map Prod.fst =
      sortAsc (uniqKeys (words.map fun w => roundTo1 w.top)) := by
    unfold lineGroups
    exact hmap _ _
  rw [hkeys]
  have h1 : List.Pairwise (fun a b : Rat => a ≤ b)
      (sortAsc (uniqKeys (words.map fun w => roundTo1 w.top))) := sortAsc_pairwise _
  have h2 : (sortAsc (uniqKeys (words.map fun w => roundTo1 w.top))).Nodup := by
    rw [List.Perm.nodup_iff (sortAsc_perm _)]
    exact nodup_uniqKeys _
  have h2' : List.Pairwise (fun a b : Rat => a ≠ b)
      (sortAsc (uniqKeys (words.map fun w => roundTo1 w.top))) := h2
  exact (h1.and h2').imp (fun hab => lt_of_le_of_ne hab.1 hab.2)

/-- A line step either leaves the accumulator unchanged or appends exactly one
record, tagged with the current page, the line's rounded top, and
`id = len(headings)`. -/
theorem processLine_ok (body_size : Rat) (heading_sizes : List Rat) (size_tol : Rat)
    (p1 : Nat) (acc : List Heading) (k : Rat) (lws : List Word) (res : List Heading)
    (h : processLine body_size heading_sizes size_tol p1 acc k lws = .ok res) :
    res = acc ∨ ∃ lv m t, res = acc ++ [⟨acc.length, p1, k, some lv, m, t, none⟩] := by
  unfold processLine at h
  by_cases h0 : pyStrip (joinSpace (lws.map (fun w => w.text))) = ""
  · rw [if_pos h0] at h
    exact Or.inl (Except.ok.inj h).symm
  · rw [if_neg h0] at h
    cases hm : lws.mapM (fun w => w.size) with
    | none => rw [hm] at h; exact Except.noConfusion h
    | some sizes =>
        rw [hm] at h
        dsimp only at h
        cases hl : line_heading_level (pyStrip (joinSpace (lws.map (fun w => w.text))))
            (medianList sizes) body_size heading_sizes size_tol with
        | none =>
            rw [hl] at h
            exact Or.inl (Except.ok.inj h).symm
        | some lv =>
            rw [hl] at h
            exact Or.inr ⟨lv, medianList sizes,
              pyStrip (joinSpace (lws.map (fun w => w.text))),
              (Except.ok.inj h).symm⟩

/-- Invariant of the per-page line loop: ids stay positional, the accumulator
stays strictly sorted in document order, and every record lands on page `p1` or
earlier. -/
theorem processLines_inv (body_size : Rat) (heading_sizes : List Rat) (size_tol : Rat)
    (p1 : Nat) :
    ∀ (groups : List (Rat × List Word)) (acc res : List Heading),
      processLines body_size heading_sizes size_tol p1 acc groups = .ok res →
      IdsOk acc →
      List.Pairwise PTlt acc →
      (∀ h ∈ acc, ∀ kk ∈ groups.map Prod.fst,
          h.page < p1 ∨ (h.page = p1 ∧ h.top < kk)) →
      List.Pairwise (fun a b : Rat => a < b) (groups.map Prod.fst) →
      (∀ h ∈ acc, h.page ≤ p1) →
      IdsOk res ∧ List.Pairwise PTlt res ∧ (∀ h ∈ res, h.page ≤ p1) := by
  intro groups
  induction groups with
  | nil =>
      intro acc res h hids hpw _ _ hle
      cases h
      exact ⟨hids, hpw, hle⟩
  | cons g rest ih =>
      intro acc res h hids hpw hbelow hkeys hle
      obtain ⟨k, lws⟩ := g
      unfold processLines at h
      cases hpl : processLine body_size heading_sizes size_tol p1 acc k lws with
      | error e => rw [hpl] at h; exact Except.noConfusion h
      | ok acc' =>
          rw [hpl] at h
          rcases processLine_ok body_size heading_sizes size_tol p1 acc k lws acc' hpl with
            hsame | ⟨lv, m, t, happ⟩
          · subst hsame
            refine ih acc' res h hids hpw ?_ ?_ hle
            · intro x hx kk hkk
              exact hbelow x hx kk (List.mem_cons_of_mem k hkk)
            · exact (List.pairwise_cons.mp hkeys).2
          · subst happ
            have hkmem : k ∈ ((k, lws) :: rest).map Prod.fst := List.mem_cons_self _ _
            have hnew : ∀ x ∈ acc, PTlt x ⟨acc.length, p1, k, some lv, m, t, none⟩ := by
              intro x hx
              rcases hbelow x hx k hkmem with hp | ⟨hp, ht⟩
              · exact Or.inl hp
              · exact Or.inr ⟨hp, ht⟩
            refine ih _ res h ?_ ?_ ?_ ?_ ?_
            · exact IdsOk_append_one acc _ hids rfl
            · rw [List.pairwise_append]
              refine ⟨hpw, List.pairwise_singleton _ _, ?_⟩
              intro a ha b hb
              rw [List.mem_singleton.mp hb]
              exact hnew a ha
            · intro x hx kk hkk
              rcases List.mem_append.mp hx with hx | hx
              · exact hbelow x hx kk (List.mem_cons_of_mem k hkk)
              · rw [List.mem_singleton.mp hx]
                refine Or.inr ⟨rfl, ?_⟩
                exact (List.pairwise_cons.mp hkeys).1 kk hkk
            · exact (List.pairwise_cons.mp hkeys).2
            · intro x hx
              rcases List.mem_append.mp hx with hx | hx
              · exact hle x hx
              · rw [List.mem_singleton.mp hx]

/-- A list already strictly sorted by `(page, top)` is left unchanged by the
defensive sort. -/
theorem sortByPageTop_of_sorted (l : List Heading) (h : List.Pairwise PTlt l) :
    sortByPageTop l = l := by
  induction l with
  | nil => rfl
  | cons x xs ih =>
      have hs : sortByPageTop (x :: xs) = insertPT x (sortByPageTop xs) := rfl
      rw [hs, ih (List.pairwise_cons.mp h).2]
      cases xs with
      | nil => rfl
      | cons y ys =>
          unfold insertPT
          rw [if_pos ((pageTopLt_iff x y).mpr
            ((List.pairwise_cons.mp h).1 y (List.mem_cons_self y ys)))]

/-- A list already strictly sorted by id is left unchanged when sorted by id. -/
theorem sortById_of_sorted (l : List Heading)
    (h : List.Pairwise (fun a b => a.id < b.id) l) : sortById l = l := by
  induction l with
  | nil => rfl
  | cons x xs ih =>
      have hs : sortById (x :: xs) = insertById x (sortById xs) := rfl
      rw [hs, ih (List.pairwise_cons.mp h).2]
      cases xs with
      | nil => rfl
      | cons y ys =>
          unfold insertById
          rw [if_pos ((List.pairwise_cons.mp h).1 y (List.mem_cons_self y ys))]

/-- Positional ids (with an offset) make the id sequence strictly increasing. -/
theorem pairwise_id_of_ids : ∀ (l : List Heading) (base : Nat),
    (∀ i h, l.get? i = some h → h.id = base + i) →
    List.Pairwise (fun a b : Heading => a.id < b.id) l := by
  intro l
  induction l with
  | nil => intro base _; simp
  | cons x xs ih =>
      intro base hids
      refine List.pairwise_cons.mpr ⟨?_, ih (base + 1) ?_⟩
      · intro y hy
        obtain ⟨j, hj⟩ := List.mem_iff_get?.mp hy
        have hyid := hids (j + 1) y hj
        have hxid := hids 0 x rfl
        omega
      · intro i h hget
        have := hids (i + 1) h hget
        omega

/-- Invariant of the page loop: after scanning any suffix of pages starting at
0-based index `pIdx`, ids are positional, the list is strictly sorted by
`(page, top)`, and pages stay within range. -/
theorem processPages_inv (body_size : Rat) (heading_sizes : List Rat) (size_tol : Rat) :
    ∀ (pgs : List (List Word)) (pIdx : Nat) (acc res : List Heading),
      processPages body_size heading_sizes size_tol pIdx acc pgs = .ok res →
      IdsOk acc →
      List.Pairwise PTlt acc →
      (∀ h ∈ acc, h.page ≤ pIdx) →
      IdsOk res ∧ List.Pairwise PTlt res ∧ (∀ h ∈ res, h.page ≤ pIdx + pgs.length) := by
  intro pgs
  induction pgs with
  | nil =>
      intro pIdx acc res h hids hpw hle
      cases h
      exact ⟨hids, hpw, fun x hx => le_trans (hle x hx) (Nat.le_add_right _ _)⟩
  | cons pg rest ih =>
      intro pIdx acc res h hids hpw hle
      unfold processPages at h
      cases hpp : processPage body_size heading_sizes size_tol (pIdx + 1) acc pg with
      | error e => rw [hpp] at h; exact Except.noConfusion h
      | ok acc' =>
          rw [hpp] at h
          have hpage := processLines_inv body_size heading_sizes size_tol (pIdx + 1)
            (lineGroups pg) acc acc' hpp hids hpw
            (fun x hx kk _ => Or.inl (Nat.lt_succ_of_le (hle x hx)))
            (lineGroups_keys_strict pg)
            (fun x hx => Nat.le_succ_of_le (hle x hx))
          obtain ⟨hids', hpw', hle'⟩ := hpage
          have := ih (pIdx + 1) acc' res h hids' hpw' hle'
          refine ⟨this.1, this.2.1, ?_⟩
          intro x hx
          have hxx := this.2.2 x hx
          simp only [List.length_cons]
          omega

/-- Claim C8: the flat list produced by `extract_headings` is strictly sorted
by `(page, top)`, every record's id equals its index (ids are assigned
sequentially at append time), sorting by id agrees with sorting by
`(page, top)` (both leave the list unchanged), and the final defensive sort of
detect_headings.py line 186 never reorders the list: `extract_headings` returns
the production-order list as is. -/
theorem C8_extraction_order (pages : List (List Word)) (size_tol : Rat)
    (max_pages : Option Nat) (body_size : Rat) (heading_sizes : List Rat)
    (raw : List Heading)
    (h : extract_raw pages size_tol max_pages = .ok (body_size, heading_sizes, raw)) :
    List.Pairwise PTlt raw ∧
    (∀ i x, raw.get? i = some x → x.id = i) ∧
    sortByPageTop raw = raw ∧
    sortById raw = raw ∧
    extract_headings pages size_tol max_pages = .ok (body_size, heading_sizes, raw) := by
  have hcopy := h
  unfold extract_raw at h
  cases ha : analyze_font_sizes pages max_pages with
  | error e => rw [ha] at h; exact Except.noConfusion h
  | ok bh =>
      rw [ha] at h
      obtain ⟨b0, hs0⟩ := bh
      dsimp only at h
      cases hp : processPages b0 hs0 size_tol 0 [] (pagesScanned pages max_pages) with
      | error e => rw [hp] at h; exact Except.noConfusion h
      | ok headings =>
          rw [hp] at h
          have h3 := Except.ok.inj h
          simp only [Prod.mk.injEq] at h3
          obtain ⟨hb, hhs, hraw⟩ := h3
          subst hb; subst hhs; subst hraw
          obtain ⟨hids, hpw, -⟩ := processPages_inv b0 hs0 size_tol
            (pagesScanned pages max_pages) 0 [] headings hp
            (by intro i x hget; simp at hget)
            (by simp)
            (by simp)
          have hidlt : List.Pairwise (fun a b : Heading => a.id < b.id) headings :=
            pairwise_id_of_ids headings 0 (by
              intro i x hget
              rw [hids i x hget]
              omega)
          refine ⟨hpw, hids, sortByPageTop_of_sorted headings hpw,
            sortById_of_sorted headings hidlt, ?_⟩
          unfold extract_headings
          rw [hcopy]
          dsimp only
          rw [sortByPageTop_of_sorted headings hpw]

/-- Witness for C8 on the one-page document of `pagesC7`: the single extracted
heading already sits in document order with id 0, and the defensive sort
returns it unchanged. -/
theorem C8_extraction_order_witness :
    extract_headings pagesC7 (3/5) none =
      .ok ((10 : Rat), ([14] : List Rat),
        [(⟨0, 1, 10, some 1, 14, "THE BIG TITLE", none⟩ : Heading)]) ∧
    sortById [(⟨0, 1, 10, some 1, 14, "THE BIG TITLE", none⟩ : Heading)] =
      [(⟨0, 1, 10, some 1, 14, "THE BIG TITLE", none⟩ : Heading)] := by
  have h := C8_extraction_order pagesC7 (3/5) none 10 [14]
    [⟨0, 1, 10, some 1, 14, "THE BIG TITLE", none⟩] (by with_unfolding_all rfl)
  exact ⟨h.2.2.2.2, h.2.2.2.1⟩

/-! ## Claim C3 — words with unparseable font sizes -/

/-- Counterexample to claim C3: on a document containing a word (`"B"`) whose
size does not parse, the profiler silently drops the token (the histogram is
`[12]` and profiling succeeds), but heading extraction raises on the
uncaught `float(w["size"])` of detect_headings.py line 160: the scan does not
complete. -/
theorem C3_counterexample :
    sizeList pagesBad none = [(12 : Rat)] ∧
    analyze_font_sizes pagesBad none = .ok ((12 : Rat), ([] : List Rat)) ∧
    extract_headings pagesBad (3/5) none =
      .error ("could not convert string to float") := by
  refine ⟨?_, ?_, ?_⟩ <;> with_unfolding_all rfl

/-- A successful `mapM` over the words' sizes means every size parsed. -/
theorem mapM_size_isSome : ∀ (lws : List Word),
    (lws.mapM (fun w : Word => w.size)).isSome → ∀ w ∈ lws, w.size.isSome := by
  intro lws
  induction lws with
  | nil => intro _ w hw; simp at hw
  | cons x xs ih =>
      intro h w hw
      rw [List.mapM_cons] at h
      cases hx : x.size with
      | none => rw [hx] at h; simp at h
      | some v =>
          rw [hx] at h
          rcases List.mem_cons.mp hw with hw | hw
          · subst hw; rw [hx]; rfl
          · refine ih ?_ w hw
            cases hm : xs.mapM (fun w : Word => w.size) with
            | none => rw [hm] at h; simp at h
            | some ys => rfl

/-- A line with visible text is processed only if every one of its words has a
parseable size. -/
theorem processLine_sizes (body_size : Rat) (heading_sizes : List Rat) (size_tol : Rat)
    (p1 : Nat) (acc : List Heading) (k : Rat) (lws : List Word) (res : List Heading)
    (h : processLine body_size heading_sizes size_tol p1 acc k lws = .ok res)
    (hne : pyStrip (joinSpace (lws.map (fun w => w.text))) ≠ "") :
    ∀ w ∈ lws, w.size.isSome := by
  unfold processLine at h
  rw [if_neg hne] at h
  cases hm : lws.mapM (fun w => w.size) with
  | none => rw [hm] at h; exact Except.noConfusion h
  | some sizes => exact mapM_size_isSome lws (by rw [hm]; rfl)

/-- Every line bucket of a successful line loop was processed successfully with
some accumulator. -/
theorem processLines_each (body_size : Rat) (heading_sizes : List Rat) (size_tol : Rat)
    (p1 : Nat) :
    ∀ (groups : List (Rat × List Word)) (acc res : List Heading),
      processLines body_size heading_sizes size_tol p1 acc groups = .ok res →
      ∀ g ∈ groups, ∃ acc0 res0,
        processLine body_size heading_sizes size_tol p1 acc0 g.1 g.2 = .ok res0 := by
  intro groups
  induction groups with
  | nil => intro acc res _ g hg; simp at hg
  | cons g0 rest ih =>
      intro acc res h g hg
      obtain ⟨k, lws⟩ := g0
      unfold processLines at h
      cases hpl : processLine body_size heading_sizes size_tol p1 acc k lws with
      | error e => rw [hpl] at h; exact Except.noConfusion h
      | ok acc' =>
          rw [hpl] at h
          rcases List.mem_cons.mp hg with hg | hg
          · subst hg; exact ⟨acc, acc', hpl⟩
          · exact ih acc' res h g hg

/-- Every page of a successful page loop was processed successfully with some
accumulator and page number. -/
theorem processPages_each (body_size : Rat) (heading_sizes : List Rat) (size_tol : Rat) :
    ∀ (pgs : List (List Word)) (pIdx : Nat) (acc res : List Heading),
      processPages body_size heading_sizes size_tol pIdx acc pgs = .ok res →
      ∀ pg ∈ pgs, ∃ p1 acc0 res0,
        processPage body_size heading_sizes size_tol p1 acc0 pg = .ok res0 := by
  intro pgs
  induction pgs with
  | nil => intro pIdx acc res _ pg hpg; simp at hpg
  | cons pg0 rest ih =>
      intro pIdx acc res h pg hpg
      unfold processPages at h
      cases hpp : processPage body_size heading_sizes size_tol (pIdx + 1) acc pg0 with
      | error e => rw [hpp] at h; exact Except.noConfusion h
      | ok acc' =>
          rw [hpp] at h
          rcases List.mem_cons.mp hpg with hpg | hpg
          · subst hpg; exact ⟨pIdx + 1, acc, acc', hpp⟩
          · exact ih (pIdx + 1) acc' res h pg hpg

/-- Dropping the unparseable-size words of a page does not change the parsed
sizes it contributes. -/
theorem filterMap_size_filter (ws : List Word) :
    (ws.filter (fun w => w.size.isSome)).filterMap (fun w => w.size) =
      ws.filterMap (fun w => w.size) := by
  induction ws with
  | nil => rfl
  | cons x xs ih =>
      cases hx : x.size with
      | none => simp [List.filter_cons, List.filterMap_cons, hx, ih]
      | some v => simp [List.filter_cons, List.filterMap_cons, hx, ih]

theorem flatten_filterMap_filter (ps : List (List Word)) :
    ((ps.map (fun pg => pg.filter (fun w => w.size.isSome))).flatten).filterMap
        (fun w => w.size) =
      (ps.flatten).filterMap (fun w => w.size) := by
  induction ps with
  | nil => rfl
  | cons pg rest ih =>
      simp only [List.map_cons, List.flatten_cons, List.filterMap_append]
      rw [filterMap_size_filter, ih]

theorem take_map_filter_comm (n : Nat) (ps : List (List Word)) :
    (ps.map (fun pg => pg.filter (fun w => w.size.isSome))).take n =
      (ps.take n).map (fun pg => pg.filter (fun w => w.size.isSome)) := by
  induction ps generalizing n with
  | nil => simp
  | cons pg rest ih =>
      cases n with
      | zero => rfl
      | succ m =>
          simp only [List.map_cons, List.take_succ_cons]
          rw [ih]

/-- Claim C3 (amended): a word whose size field cannot be parsed is silently
dropped from the font-size histogram — `analyze_font_sizes` sees exactly the
parseable tokens — but heading extraction does *not* recover: line assembly
coerces every word's size without a handler (detect_headings.py line 160), so
the scan raises whenever such a word lies on a line with visible text, and a
successful extraction certifies that every word on every visible line of every
scanned page had a parseable size. -/
theorem C3_token_coercion (pages : List (List Word)) (size_tol : Rat)
    (max_pages : Option Nat) :
    (sizeList pages max_pages =
      sizeList (pages.map (fun pg => pg.filter (fun w => w.size.isSome))) max_pages) ∧
    (∀ res, extract_raw pages size_tol max_pages = .ok res →
      ∀ pg ∈ pagesScanned pages max_pages, ∀ g ∈ lineGroups pg,
        pyStrip (joinSpace (g.2.map (fun w => w.text))) ≠ "" →
        ∀ w ∈ g.2, w.size.isSome) := by
  constructor
  · unfold sizeList pagesScanned
    cases max_pages with
    | none =>
        dsimp only
        rw [flatten_filterMap_filter]
    | some n =>
        dsimp only
        rw [take_map_filter_comm, flatten_filterMap_filter]
  · intro res hok pg hpg g hg htext w hw
    unfold extract_raw at hok
    cases ha : analyze_font_sizes pages max_pages with
    | error e => rw [ha] at hok; exact Except.noConfusion hok
    | ok bh =>
        rw [ha] at hok
        obtain ⟨b0, hs0⟩ := bh
        dsimp only at hok
        cases hp : processPages b0 hs0 size_tol 0 [] (pagesScanned pages max_pages) with
        | error e => rw [hp] at hok; exact Except.noConfusion hok
        | ok headings =>
            obtain ⟨p1, acc0, res0, hpage⟩ :=
              processPages_each b0 hs0 size_tol (pagesScanned pages max_pages) 0 []
                headings hp pg hpg
            obtain ⟨acc1, res1, hline⟩ :=
              processLines_each b0 hs0 size_tol p1 (lineGroups pg) acc0 res0 hpage g hg
            exact processLine_sizes b0 hs0 size_tol p1 acc1 g.1 g.2 res1 hline htext w hw

/-- Witness for the amended C3: the histogram of `pagesBad` ignores its
unparseable token, and on the successfully scanned `pagesC7` the theorem
certifies that the words of the visible title line all carry parseable sizes. -/
theorem C3_token_coercion_witness :
    sizeList pagesBad none =
      sizeList (pagesBad.map (fun pg => pg.filter (fun w => w.size.isSome))) none ∧
    (⟨"THE", 0, 3, 10, some 14⟩ : Word).size.isSome := by
  refine ⟨(C3_token_coercion pagesBad (3/5) none).1, ?_⟩
  refine (C3_token_coercion pagesC7 (3/5) none).2
    (10, [14], [⟨0, 1, 10, some 1, 14, "THE BIG TITLE", none⟩])
    (by with_unfolding_all rfl)
    (pagesC7.headD []) (by with_unfolding_all decide)
    ((10 : Rat), sortByX0 ((pagesC7.headD []).filter (fun w => roundTo1 w.top == 10)))
    (by with_unfolding_all decide)
    (by with_unfolding_all decide)
    (⟨"THE", 0, 3, 10, some 14⟩ : Word)
    (by with_unfolding_all decide)

/-! ## Tree assembly: invariants of the frame-stack walk -/

theorem flattenNode_mk (r : Heading) (cs : List HNode) :
    flattenNode (.mk r cs) = r :: flattenForest cs := rfl

theorem flattenForest_nil : flattenForest [] = [] := rfl

theorem flattenForest_cons (n : HNode) (ns : List HNode) :
    flattenForest (n :: ns) = flattenNode n ++ flattenForest ns := rfl

theorem flattenForest_append (a b : List HNode) :
    flattenForest (a ++ b) = flattenForest a ++ flattenForest b := by
  induction a with
  | nil => rw [List.nil_append, flattenForest_nil, List.nil_append]
  | cons n ns ih =>
      rw [List.cons_append, flattenForest_cons, flattenForest_cons, ih,
        List.append_assoc]

theorem pairsNode_mk (r : Heading) (cs : List HNode) :
    pairsNode (.mk r cs) = cs.map (fun c => (r, c.rcd)) ++ pairsForest cs := rfl

theorem pairsForest_nil : pairsForest [] = [] := rfl

theorem pairsForest_cons (n : HNode) (ns : List HNode) :
    pairsForest (n :: ns) = pairsNode n ++ pairsForest ns := rfl

theorem pairsForest_append (a b : List HNode) :
    pairsForest (a ++ b) = pairsForest a ++ pairsForest b := by
  induction a with
  | nil => rw [List.nil_append, pairsForest_nil, List.nil_append]
  | cons n ns ih =>
      rw [List.cons_append, pairsForest_cons, pairsForest_cons, ih,
        List.append_assoc]

theorem PairProp_append (pre s : List Heading) (p c : Heading)
    (h : PairProp pre p c) : PairProp (pre ++ s) p c := by
  obtain ⟨hlv, l, mid, r, hsplit, hmid⟩ := h
  refine ⟨hlv, l, mid, r ++ s, ?_, hmid⟩
  rw [hsplit]
  simp [List.append_assoc]

/-- Popping one frame (with at least one frame below it) preserves the walk
invariant: the popped frame becomes a node appended to the children of the
frame below, materialising the pair of their records. -/
theorem pop_one_walkinv (pre : List Heading)
    (roots : List HNode) (f g : Heading × List HNode)
    (rest : List (Heading × List HNode))
    (hinv : WalkInv pre (roots, f :: g :: rest)) :
    WalkInv pre (roots, (g.1, g.2 ++ [HNode.mk f.1 f.2]) :: rest) := by
  obtain ⟨hflat, hord, hcb, hpairs, hmem⟩ := hinv
  obtain ⟨hcbfg, hcbtail⟩ := hcb
  have hnodeflat : flattenForest (g.2 ++ [HNode.mk f.1 f.2]) =
      flattenForest g.2 ++ (f.1 :: flattenForest f.2) := by
    rw [flattenForest_append, flattenForest_cons, flattenForest_nil,
      flattenNode_mk, List.append_nil]
  have hgf : levelValue g.1 < levelValue f.1 :=
    (List.pairwise_cons.mp hord).1 g (List.mem_cons_self g rest)
  -- the new pair satisfies PairProp
  have hnewpair : PairProp pre g.1 f.1 := by
    refine ⟨hgf, flattenForest roots ++ stackFlat rest, flattenForest g.2,
      flattenForest f.2, ?_, fun x hx => hcbfg x hx⟩
    rw [← hflat]
    simp only [stackFlat, frameFlat, List.append_assoc, List.cons_append]
  -- membership in the new pair list, in terms of the old one
  have hpairsplit : ∀ pc : Heading × Heading,
      pc ∈ statePairs (roots, (g.1, g.2 ++ [HNode.mk f.1 f.2]) :: rest) ↔
        pc = (g.1, f.1) ∨ pc ∈ statePairs (roots, f :: g :: rest) := by
    intro pc
    simp only [statePairs, stackPairs, framePairs, pairsForest_append,
      pairsForest_cons, pairsForest_nil, pairsNode_mk, List.map_append,
      List.map_cons, List.map_nil, List.append_nil, List.mem_append,
      List.mem_cons, List.not_mem_nil, or_false]
    constructor
    · intro h; tauto
    · intro h; tauto
  refine ⟨?_, ?_, ?_, ?_, ?_⟩
  · -- flatten
    rw [← hflat]
    simp only [stackFlat, frameFlat, hnodeflat, List.append_assoc,
      List.cons_append]
  · -- ordered
    unfold StackOrdered at hord ⊢
    have h2 := (List.pairwise_cons.mp hord).2
    obtain ⟨hg, hrest⟩ := List.pairwise_cons.mp h2
    exact List.pairwise_cons.mpr ⟨fun h hmemh => hg h hmemh, hrest⟩
  · -- children bound
    cases rest with
    | nil => trivial
    | cons h r =>
        obtain ⟨ha, hb⟩ := hcbtail
        exact ⟨ha, hb⟩
  · -- pairs
    intro pc hpc
    rcases (hpairsplit pc).mp hpc with hpc | hpc
    · rw [hpc]; exact hnewpair
    · exact hpairs pc hpc
  · -- membership
    intro x hx
    rcases hmem x hx with ⟨p, hp⟩ | hroot | hstk
    · exact Or.inl ⟨p, (hpairsplit (p, x)).mpr (Or.inr hp)⟩
    · exact Or.inr (Or.inl hroot)
    · simp only [List.map_cons, List.mem_cons] at hstk
      rcases hstk with hx1 | hx1 | hx1
      · exact Or.inl ⟨g.1, (hpairsplit (g.1, x)).mpr (Or.inl (by rw [hx1]))⟩
      · refine Or.inr (Or.inr ?_)
        simp only [List.map_cons, List.mem_cons]
        exact Or.inl hx1
      · refine Or.inr (Or.inr ?_)
        simp only [List.map_cons, List.mem_cons]
        exact Or.inr hx1

/-- Popping one frame also preserves the bound relating the incoming record's
level to the new top frame's children. -/
theorem pop_one_topbound (pre : List Heading) (lv : WithTop Int)
    (roots : List HNode) (f g : Heading × List HNode)
    (rest : List (Heading × List HNode))
    (hinv : WalkInv pre (roots, f :: g :: rest))
    (htop : TopBound lv (f :: g :: rest))
    (hc : lv ≤ levelValue f.1) :
    TopBound lv ((g.1, g.2 ++ [HNode.mk f.1 f.2]) :: rest) := by
  obtain ⟨hflat, hord, hcb, hpairs, hmem⟩ := hinv
  obtain ⟨hcbfg, hcbtail⟩ := hcb
  have hnodeflat : flattenForest (g.2 ++ [HNode.mk f.1 f.2]) =
      flattenForest g.2 ++ (f.1 :: flattenForest f.2) := by
    rw [flattenForest_append, flattenForest_cons, flattenForest_nil,
      flattenNode_mk, List.append_nil]
  show ∀ x ∈ flattenForest (g.2 ++ [HNode.mk f.1 f.2]), lv ≤ levelValue x
  intro x hx
  rw [hnodeflat] at hx
  rcases List.mem_append.mp hx with hx | hx
  · exact le_trans hc (hcbfg x hx)
  · rcases List.mem_cons.mp hx with hx | hx
    · rw [hx]; exact hc
    · exact htop x hx

theorem popWhileGE_nil (lv : WithTop Int) (roots : List HNode) :
    popWhileGE lv roots [] = (roots, []) := by
  unfold popWhileGE
  rfl

theorem popWhileGE_cons_stop (lv : WithTop Int) (roots : List HNode)
    (f : Heading × List HNode) (rest : List (Heading × List HNode))
    (hc : ¬ lv ≤ levelValue f.1) :
    popWhileGE lv roots (f :: rest) = (roots, f :: rest) := by
  conv_lhs => unfold popWhileGE
  rw [if_neg hc]

theorem popWhileGE_cons_last (lv : WithTop Int) (roots : List HNode)
    (f : Heading × List HNode) (hc : lv ≤ levelValue f.1) :
    popWhileGE lv roots [f] = (roots ++ [HNode.mk f.1 f.2], []) := by
  conv_lhs => unfold popWhileGE
  rw [if_pos hc]

theorem popWhileGE_cons_pop (lv : WithTop Int) (roots : List HNode)
    (f g : Heading × List HNode) (rest : List (Heading × List HNode))
    (hc : lv ≤ levelValue f.1) :
    popWhileGE lv roots (f :: g :: rest) =
      popWhileGE lv roots ((g.1, g.2 ++ [HNode.mk f.1 f.2]) :: rest) := by
  conv_lhs => unfold popWhileGE
  rw [if_pos hc]

/-- The pop loop preserves the walk invariant and the top bound, and afterwards
the (possibly surviving) top frame has level strictly below the incoming
record's — exactly the parent-search post-condition of `build_tree`. -/
theorem popWhileGE_inv (lv : WithTop Int) (pre : List Heading) :
    ∀ (n : Nat) (stack : List (Heading × List HNode)) (roots : List HNode),
      stack.length ≤ n →
      WalkInv pre (roots, stack) → TopBound lv stack →
      WalkInv pre (popWhileGE lv roots stack) ∧
      TopBound lv (popWhileGE lv roots stack).2 ∧
      ∀ f rest, (popWhileGE lv roots stack).2 = f :: rest → levelValue f.1 < lv := by
  intro n
  induction n with
  | zero =>
      intro stack roots hlen hinv htop
      have hstack : stack = [] := List.length_eq_zero.mp (Nat.le_zero.mp hlen)
      subst hstack
      rw [popWhileGE_nil]
      exact ⟨hinv, trivial, fun f rest h => List.noConfusion h⟩
  | succ m ih =>
      intro stack roots hlen hinv htop
      cases stack with
      | nil =>
          rw [popWhileGE_nil]
          exact ⟨hinv, trivial, fun f rest h => List.noConfusion h⟩
      | cons f rest =>
          by_cases hc : lv ≤ levelValue f.1
          · cases rest with
            | nil =>
                rw [popWhileGE_cons_last lv roots f hc]
                obtain ⟨hflat, hord, hcb, hpairs, hmem⟩ := hinv
                refine ⟨⟨?_, List.Pairwise.nil, trivial, ?_, ?_⟩, trivial,
                  fun f' rest' h => List.noConfusion h⟩
                · rw [← hflat]
                  simp only [flattenForest_append, flattenForest_cons,
                    flattenForest_nil, flattenNode_mk, stackFlat, frameFlat,
                    List.append_nil, List.nil_append, List.append_assoc]
                · intro pc hpc
                  apply hpairs
                  revert hpc
                  simp only [statePairs, stackPairs, framePairs, pairsForest_append,
                    pairsForest_cons, pairsForest_nil, pairsNode_mk,
                    List.append_nil, List.mem_append]
                  tauto
                · intro x hx
                  rcases hmem x hx with ⟨p, hp⟩ | hroot | hstk
                  · refine Or.inl ⟨p, ?_⟩
                    revert hp
                    simp only [statePairs, stackPairs, framePairs, pairsForest_append,
                      pairsForest_cons, pairsForest_nil, pairsNode_mk,
                      List.append_nil, List.mem_append]
                    tauto
                  · refine Or.inr (Or.inl ?_)
                    simp only [List.map_append, List.mem_append]
                    exact Or.inl hroot
                  · refine Or.inr (Or.inl ?_)
                    simp only [List.map_cons, List.map_nil, List.mem_cons,
                      List.not_mem_nil, or_false] at hstk
                    simp only [List.map_append, List.map_cons, List.map_nil,
                      List.mem_append, List.mem_cons, List.not_mem_nil, or_false]
                    exact Or.inr (by rw [hstk]; rfl)
            | cons g rest' =>
                rw [popWhileGE_cons_pop lv roots f g rest' hc]
                have hinv' := pop_one_walkinv pre roots f g rest' hinv
                have htop' := pop_one_topbound pre lv roots f g rest' hinv htop hc
                refine ih _ roots ?_ hinv' htop'
                simp only [List.length_cons] at hlen ⊢
                omega
          · rw [popWhileGE_cons_stop lv roots f rest hc]
            refine ⟨hinv, htop, ?_⟩
            intro f' rest' h
            have hf : f = f' := by
              have h2 : f :: rest = f' :: rest' := h
              injection h2
            rw [← hf]
            exact not_le.mp hc

/-- Processing one record preserves the walk invariant, extending the read
prefix, and leaves a fresh childless frame on top. -/
theorem stepBT_inv (pre : List Heading) (h : Heading)
    (st : List HNode × List (Heading × List HNode))
    (hinv : WalkInv pre st) (hte : TopEmpty st.2) :
    WalkInv (pre ++ [h]) (stepBT st h) ∧ TopEmpty (stepBT st h).2 := by
  have htop : TopBound (levelValue h) st.2 := by
    cases hst : st.2 with
    | nil => trivial
    | cons f rest =>
        rw [hst] at hte
        have hf2 : f.2 = [] := hte
        show ∀ x ∈ flattenForest f.2, levelValue h ≤ levelValue x
        intro x hx
        rw [hf2, flattenForest_nil] at hx
        exact absurd hx (List.not_mem_nil x)
  obtain ⟨hpop, htop', hpost⟩ :=
    popWhileGE_inv (levelValue h) pre st.2.length st.2 st.1 (le_refl _) hinv htop
  have hstep : stepBT st h =
      ((popWhileGE (levelValue h) st.1 st.2).1,
       (h, []) :: (popWhileGE (levelValue h) st.1 st.2).2) := rfl
  rw [hstep]
  cases hP : popWhileGE (levelValue h) st.1 st.2 with
  | mk roots' stack' =>
      rw [hP] at hpop htop' hpost
      constructor
      · obtain ⟨hflat, hord, hcb, hpairs, hmem⟩ := hpop
        refine ⟨?_, ?_, ?_, ?_, ?_⟩
        · rw [← hflat]
          simp only [stackFlat, frameFlat, flattenForest_nil, List.append_assoc]
        · refine List.pairwise_cons.mpr ⟨?_, hord⟩
          intro g hg
          cases stack' with
          | nil => exact absurd hg (List.not_mem_nil g)
          | cons t ts =>
              have htlt := hpost t ts rfl
              rcases List.mem_cons.mp hg with hg | hg
              · rw [hg]; exact htlt
              · exact lt_trans ((List.pairwise_cons.mp hord).1 g hg) htlt
        · cases stack' with
          | nil => trivial
          | cons t ts => exact ⟨fun x hx => htop' x hx, hcb⟩
        · intro pc hpc
          apply PairProp_append
          apply hpairs
          revert hpc
          simp only [statePairs, stackPairs, framePairs, List.map_nil,
            pairsForest_nil, List.nil_append, List.mem_append]
          tauto
        · intro x hx
          rcases List.mem_append.mp hx with hx | hx
          · rcases hmem x hx with ⟨p, hp⟩ | hroot | hstk
            · refine Or.inl ⟨p, ?_⟩
              revert hp
              simp only [statePairs, stackPairs, framePairs, List.map_nil,
                pairsForest_nil, List.nil_append, List.mem_append]
              tauto
            · exact Or.inr (Or.inl hroot)
            · refine Or.inr (Or.inr ?_)
              simp only [List.map_cons, List.mem_cons]
              exact Or.inr hstk
          · rw [List.mem_singleton.mp hx]
            refine Or.inr (Or.inr ?_)
            simp
      · show ((h, []) : Heading × List HNode).2 = []
        rfl

theorem walkInv_init : WalkInv [] ([], []) := by
  refine ⟨rfl, List.Pairwise.nil, trivial, ?_, ?_⟩
  · intro pc hpc
    simp [statePairs, stackPairs, pairsForest_nil] at hpc
  · intro x hx
    exact absurd hx (List.not_mem_nil x)

/-- The whole left fold over the input maintains the walk invariant. -/
theorem foldl_stepBT_inv :
    ∀ (hs pre : List Heading) (st : List HNode × List (Heading × List HNode)),
      WalkInv pre st → TopEmpty st.2 →
      WalkInv (pre ++ hs) (hs.foldl stepBT st) ∧ TopEmpty (hs.foldl stepBT st).2 := by
  intro hs
  induction hs with
  | nil =>
      intro pre st h ht
      rw [List.append_nil]
      exact ⟨h, ht⟩
  | cons x xs ih =>
      intro pre st h ht
      have hstep := stepBT_inv pre x st h ht
      have hrec := ih (pre ++ [x]) (stepBT st x) hstep.1 hstep.2
      rw [List.foldl_cons]
      have e : (pre ++ [x]) ++ xs = pre ++ x :: xs := by simp
      rw [e] at hrec
      exact hrec

theorem collapseStack_nil (roots : List HNode) :
    collapseStack roots [] = roots := by
  unfold collapseStack
  rfl

theorem collapseStack_one (roots : List HNode) (f : Heading × List HNode) :
    collapseStack roots [f] = roots ++ [HNode.mk f.1 f.2] := by
  unfold collapseStack
  rfl

theorem collapseStack_cons (roots : List HNode) (f g : Heading × List HNode)
    (rest : List (Heading × List HNode)) :
    collapseStack roots (f :: g :: rest) =
      collapseStack roots ((g.1, g.2 ++ [HNode.mk f.1 f.2]) :: rest) := by
  conv_lhs => unfold collapseStack

/-- Collapsing the final stack yields a forest whose traversal is exactly the
input, whose pairs all satisfy `PairProp`, and in which every input record is
either a child or a root. -/
theorem collapseStack_inv (pre : List Heading) :
    ∀ (n : Nat) (stack : List (Heading × List HNode)) (roots : List HNode),
      stack.length ≤ n →
      WalkInv pre (roots, stack) →
      flattenForest (collapseStack roots stack) = pre ∧
      (∀ pc ∈ pairsForest (collapseStack roots stack), PairProp pre pc.1 pc.2) ∧
      (∀ x ∈ pre, (∃ p, (p, x) ∈ pairsForest (collapseStack roots stack)) ∨
          x ∈ (collapseStack roots stack).map HNode.rcd) := by
  intro n
  induction n with
  | zero =>
      intro stack roots hlen hinv
      have hstack : stack = [] := List.length_eq_zero.mp (Nat.le_zero.mp hlen)
      subst hstack
      rw [collapseStack_nil]
      obtain ⟨hflat, -, -, hpairs, hmem⟩ := hinv
      rw [show stackFlat [] = [] from rfl, List.append_nil] at hflat
      refine ⟨hflat, ?_, ?_⟩
      · intro pc hpc
        apply hpairs
        simp only [statePairs, stackPairs, List.mem_append]
        exact Or.inl hpc
      · intro x hx
        rcases hmem x hx with ⟨p, hp⟩ | hroot | hstk
        · refine Or.inl ⟨p, ?_⟩
          revert hp
          simp only [statePairs, stackPairs, List.mem_append, List.not_mem_nil,
            or_false]
          exact id
        · exact Or.inr hroot
        · simp only [List.map_nil] at hstk
          exact absurd hstk (List.not_mem_nil x)
  | succ m ih =>
      intro stack roots hlen hinv
      cases stack with
      | nil =>
          exact ih [] roots (Nat.zero_le m) hinv
      | cons f rest =>
          cases rest with
          | nil =>
              rw [collapseStack_one]
              obtain ⟨hflat, hord, hcb, hpairs, hmem⟩ := hinv
              refine ⟨?_, ?_, ?_⟩
              · rw [← hflat]
                simp only [flattenForest_append, flattenForest_cons,
                  flattenForest_nil, flattenNode_mk, stackFlat, frameFlat,
                  List.append_nil, List.nil_append, List.append_assoc]
              · intro pc hpc
                apply hpairs
                revert hpc
                simp only [statePairs, stackPairs, framePairs, pairsForest_append,
                  pairsForest_cons, pairsForest_nil, pairsNode_mk,
                  List.append_nil, List.mem_append]
                tauto
              · intro x hx
                rcases hmem x hx with ⟨p, hp⟩ | hroot | hstk
                · refine Or.inl ⟨p, ?_⟩
                  revert hp
                  simp only [statePairs, stackPairs, framePairs, pairsForest_append,
                    pairsForest_cons, pairsForest_nil, pairsNode_mk,
                    List.append_nil, List.mem_append]
                  tauto
                · refine Or.inr ?_
                  simp only [List.map_append, List.mem_append]
                  exact Or.inl hroot
                · refine Or.inr ?_
                  simp only [List.map_cons, List.map_nil, List.mem_cons,
                    List.not_mem_nil, or_false] at hstk
                  simp only [List.map_append, List.map_cons, List.map_nil,
                    List.mem_append, List.mem_cons, List.not_mem_nil, or_false]
                  exact Or.inr (by rw [hstk]; rfl)
          | cons g rest' =>
              rw [collapseStack_cons]
              refine ih _ roots ?_ (pop_one_walkinv pre roots f g rest' hinv)
              simp only [List.length_cons] at hlen ⊢
              omega

/-- Summary of the walk: the forest `build_tree hs` traverses to `hs`, every
parent/child pair satisfies `PairProp hs`, and every input record is a child or
a root. -/
theorem build_tree_spec (hs : List Heading) :
    flattenForest (build_tree hs) = hs ∧
    (∀ pc ∈ pairsForest (build_tree hs), PairProp hs pc.1 pc.2) ∧
    (∀ x ∈ hs, (∃ p, (p, x) ∈ pairsForest (build_tree hs)) ∨
        x ∈ (build_tree hs).map HNode.rcd) := by
  have hfold := foldl_stepBT_inv hs [] ([], []) walkInv_init trivial
  rw [List.nil_append] at hfold
  have hbt : build_tree hs =
      collapseStack (hs.foldl stepBT ([], [])).1 (hs.foldl stepBT ([], [])).2 := rfl
  rw [hbt]
  exact collapseStack_inv hs (hs.foldl stepBT ([], [])).2.length
    (hs.foldl stepBT ([], [])).2 (hs.foldl stepBT ([], [])).1 (le_refl _) hfold.1

/-! ## Claims C5, C6, C10 — properties of `build_tree` -/

/-- Claim C6: the pre-order traversal of the forest produced by `build_tree`
is exactly the input sequence in the same order (assembly is order-preserving
and never sorts), and re-running `build_tree` on that flattened traversal
produces the identical forest (assembly is idempotent given the same levels and
order). -/
theorem C6_tree_roundtrip (hs : List Heading) :
    flattenForest (build_tree hs) = hs ∧
    build_tree (flattenForest (build_tree hs)) = build_tree hs := by
  have h := (build_tree_spec hs).1
  exact ⟨h, by rw [h]⟩

/-- Claim C5: for numeric-level inputs (skipped levels allowed), every child's
level in the produced forest is strictly greater than its parent's, and each
node is attached under the nearest preceding heading of strictly lower level:
the parent precedes the child in the input and every record strictly between
them has level at least the child's. -/
theorem C5_containment (hs : List Heading)
    (hnum : ∀ x ∈ hs, ∃ n : Int, x.level = some n) :
    ∀ p c, (p, c) ∈ pairsForest (build_tree hs) →
      (∃ np nc : Int, p.level = some np ∧ c.level = some nc ∧ np < nc) ∧
      ∃ l mid r, hs = l ++ p :: (mid ++ c :: r) ∧
        ∀ x ∈ mid, levelValue c ≤ levelValue x := by
  intro p c hpc
  obtain ⟨hlv, l, mid, r, hsplit, hmid⟩ := (build_tree_spec hs).2.1 (p, c) hpc
  have hp : p ∈ hs := by rw [hsplit]; simp
  have hcm : c ∈ hs := by rw [hsplit]; simp
  obtain ⟨np, hnp⟩ := hnum p hp
  obtain ⟨nc, hnc⟩ := hnum c hcm
  refine ⟨⟨np, nc, hnp, hnc, ?_⟩, l, mid, r, hsplit, hmid⟩
  unfold levelValue at hlv
  rw [hnp, hnc] at hlv
  have h2 : (np : WithTop Int) < (nc : WithTop Int) := hlv
  exact_mod_cast h2

/-- Witness for C5 on the skipped-level input `[level 2, level 4]`: the level-4
heading attaches directly under the level-2 heading. -/
theorem C5_containment_witness :
    (∃ np nc : Int, hW2.level = some np ∧ hW4.level = some nc ∧ np < nc) ∧
    ∃ l mid r, [hW2, hW4] = l ++ hW2 :: (mid ++ hW4 :: r) ∧
      ∀ x ∈ mid, levelValue hW4 ≤ levelValue x :=
  C5_containment [hW2, hW4]
    (by
      intro x hx
      rcases List.mem_cons.mp hx with h | hx
      · exact ⟨2, by rw [h]; rfl⟩
      · rcases List.mem_cons.mp hx with h | hx
        · exact ⟨4, by rw [h]; rfl⟩
        · exact absurd hx (List.not_mem_nil x))
    hW2 hW4 (by with_unfolding_all decide)

/-- Claim C10: `build_tree` accepts records whose level is missing or not a
number, giving them effective level `⊤` (`float("inf")`).  Such a record never
becomes the parent of any later heading (every parent in the forest has a
numeric level), and when it appears as a child its parent is the nearest
preceding numeric-level heading — every record strictly between them also lacks
a level.  Every input record ends up in the forest, as a child or as a root. -/
theorem C10_missing_levels (hs : List Heading) :
    (∀ p c, (p, c) ∈ pairsForest (build_tree hs) →
        (∃ n : Int, p.level = some n) ∧
        (c.level = none →
          ∃ l mid r, hs = l ++ p :: (mid ++ c :: r) ∧ ∀ x ∈ mid, x.level = none)) ∧
    (∀ c ∈ hs, (∃ p, (p, c) ∈ pairsForest (build_tree hs)) ∨
        c ∈ (build_tree hs).map HNode.rcd) := by
  refine ⟨?_, (build_tree_spec hs).2.2⟩
  intro p c hpc
  obtain ⟨hlv, l, mid, r, hsplit, hmid⟩ := (build_tree_spec hs).2.1 (p, c) hpc
  constructor
  · cases hp : p.level with
    | none =>
        exfalso
        have htp : levelValue p = ⊤ := by unfold levelValue; rw [hp]
        rw [htp] at hlv
        exact absurd hlv not_top_lt
    | some n => exact ⟨n, rfl⟩
  · intro hcnone
    refine ⟨l, mid, r, hsplit, ?_⟩
    intro x hx
    have hcx := hmid x hx
    have hct : levelValue c = ⊤ := by unfold levelValue; rw [hcnone]
    rw [hct] at hcx
    have hxt : levelValue x = ⊤ := top_le_iff.mp hcx
    unfold levelValue at hxt
    cases hx2 : x.level with
    | none => rfl
    | some n =>
        rw [hx2] at hxt
        exact absurd hxt (by simp)

/-- Witness for C10 on `[level 2, missing level]`: the level-less record is
attached under the level-2 record (its numeric-level nearest predecessor), with
nothing in between. -/
theorem C10_missing_levels_witness :
    (∃ n : Int, hW2.level = some n) ∧
    (∃ l mid r, [hW2, hWnone] = l ++ hW2 :: (mid ++ hWnone :: r) ∧
      ∀ x ∈ mid, x.level = none) := by
  have h := (C10_missing_levels [hW2, hWnone]).1 hW2 hWnone
    (by with_unfolding_all decide)
  exact ⟨h.1, h.2 rfl⟩

/-! ## Claim C9 — ownership and freshness in the heap model -/

theorem stepHeap_inv (σ₀ : List NodeObj) (input : List Nat)
    (σ : List NodeObj) (roots stack : List Nat) (a : Nat)
    (ha : a ∈ input) (hlt : a < σ₀.length)
    (hinv : HeapInv σ₀ input (σ, roots, stack)) :
    HeapInv σ₀ input (stepHeap (σ, roots, stack) a) := by
  obtain ⟨hlen, hagree, hroots, hstack, hobjs⟩ := hinv
  dsimp only at hlen hagree hroots hstack hobjs
  have hstep : stepHeap (σ, roots, stack) a =
      (match stack.dropWhile
          (fun t => levelValue (σ.getD a default).fields ≤
            levelValue (((σ ++ [(⟨(σ.getD a default).fields, []⟩ : NodeObj)]).getD t default)).fields) with
       | [] => (σ ++ [(⟨(σ.getD a default).fields, []⟩ : NodeObj)], roots ++ [σ.length],
           σ.length :: stack.dropWhile
             (fun t => levelValue (σ.getD a default).fields ≤
               levelValue (((σ ++ [(⟨(σ.getD a default).fields, []⟩ : NodeObj)]).getD t default)).fields))
       | p :: rest =>
           ((σ ++ [(⟨(σ.getD a default).fields, []⟩ : NodeObj)]).set p
              ⟨((σ ++ [(⟨(σ.getD a default).fields, []⟩ : NodeObj)]).getD p default).fields,
               ((σ ++ [(⟨(σ.getD a default).fields, []⟩ : NodeObj)]).getD p default).children
                 ++ [σ.length]⟩,
            roots, σ.length :: p :: rest)) := rfl
  have hσ1len : (σ ++ [(⟨(σ.getD a default).fields, []⟩ : NodeObj)]).length =
      σ.length + 1 := by
    rw [List.length_append, List.length_singleton]
  have hσ1agree : ∀ i, i < σ.length →
      (σ ++ [(⟨(σ.getD a default).fields, []⟩ : NodeObj)]).get? i = σ.get? i :=
    fun i hi => List.get?_append hi
  -- the fields of the freshly allocated node come from the input record `a`
  have hsrc : ∃ a' ∈ input, ∃ o₀, σ₀.get? a' = some o₀ ∧
      (σ.getD a default).fields = o₀.fields := by
    have hgd : σ.getD a default = (σ.get? a).getD default := List.getD_eq_get? σ a default
    have hget : σ.get? a = σ₀.get? a := hagree a hlt
    have hsome : σ₀.get? a = some (σ₀.get ⟨a, hlt⟩) := List.get?_eq_get hlt
    refine ⟨a, ha, σ₀.get ⟨a, hlt⟩, hsome, ?_⟩
    rw [hgd, hget, hsome]
    rfl
  -- objects of the extended (pre-mutation) store
  have hσ1objs : ∀ b, σ₀.length ≤ b → ∀ o,
      (σ ++ [(⟨(σ.getD a default).fields, []⟩ : NodeObj)]).get? b = some o →
      (∀ ch ∈ o.children, σ₀.length ≤ ch ∧ ch < σ.length + 1) ∧
      ∃ a' ∈ input, ∃ o₀, σ₀.get? a' = some o₀ ∧ o.fields = o₀.fields := by
    intro b hb o hget
    rcases Nat.lt_trichotomy b σ.length with hb2 | hb2 | hb2
    · rw [hσ1agree b hb2] at hget
      obtain ⟨hch, hfld⟩ := hobjs b hb o hget
      exact ⟨fun ch hcm => ⟨(hch ch hcm).1, Nat.lt_succ_of_lt (hch ch hcm).2⟩, hfld⟩
    · subst hb2
      rw [List.get?_concat_length] at hget
      cases hget
      refine ⟨?_, hsrc⟩
      intro ch hcm
      exact absurd hcm (List.not_mem_nil ch)
    · exfalso
      have : (σ ++ [(⟨(σ.getD a default).fields, []⟩ : NodeObj)]).get? b = none := by
        rw [List.get?_eq_none]
        rw [hσ1len]
        omega
      rw [this] at hget
      exact Option.noConfusion hget
  have hsub : stack.dropWhile
      (fun t => levelValue (σ.getD a default).fields ≤
        levelValue (((σ ++ [(⟨(σ.getD a default).fields, []⟩ : NodeObj)]).getD t default)).fields)
      ⊆ stack := (List.dropWhile_sublist _).subset
  rw [hstep]
  cases hd : stack.dropWhile
      (fun t => levelValue (σ.getD a default).fields ≤
        levelValue (((σ ++ [(⟨(σ.getD a default).fields, []⟩ : NodeObj)]).getD t default)).fields) with
  | nil =>
      refine ⟨?_, ?_, ?_, ?_, ?_⟩
      · rw [hσ1len]; omega
      · intro i hi
        rw [hσ1agree i (lt_of_lt_of_le hi hlen)]
        exact hagree i hi
      · intro r hr
        rcases List.mem_append.mp hr with hr | hr
        · obtain ⟨h1, h2⟩ := hroots r hr
          rw [hσ1len]
          exact ⟨h1, Nat.lt_succ_of_lt h2⟩
        · rw [List.mem_singleton.mp hr, hσ1len]
          exact ⟨hlen, Nat.lt_succ_self _⟩
      · intro t ht
        rw [List.mem_singleton.mp ht, hσ1len]
        exact ⟨hlen, Nat.lt_succ_self _⟩
      · intro b hb o hget
        obtain ⟨hch, hfld⟩ := hσ1objs b hb o hget
        refine ⟨?_, hfld⟩
        intro ch hcm
        rw [hσ1len]
        exact hch ch hcm
  | cons p rest =>
      have hpstack : p ∈ stack := hsub (hd ▸ List.mem_cons_self p rest)
      obtain ⟨hp1, hp2⟩ := hstack p hpstack
      have hsetlen : (((σ ++ [(⟨(σ.getD a default).fields, []⟩ : NodeObj)]).set p
          ⟨((σ ++ [(⟨(σ.getD a default).fields, []⟩ : NodeObj)]).getD p default).fields,
           ((σ ++ [(⟨(σ.getD a default).fields, []⟩ : NodeObj)]).getD p default).children
             ++ [σ.length]⟩)).length = σ.length + 1 := by
        rw [List.length_set, hσ1len]
      refine ⟨?_, ?_, ?_, ?_, ?_⟩
      · rw [hsetlen]; omega
      · intro i hi
        rw [List.get?_set_ne _ _ (by omega : p ≠ i)]
        rw [hσ1agree i (lt_of_lt_of_le hi hlen)]
        exact hagree i hi
      · intro r hr
        obtain ⟨h1, h2⟩ := hroots r hr
        rw [hsetlen]
        exact ⟨h1, Nat.lt_succ_of_lt h2⟩
      · intro t ht
        rw [hsetlen]
        rcases List.mem_cons.mp ht with ht | ht
        · rw [ht]
          exact ⟨hlen, Nat.lt_succ_self _⟩
        · rcases List.mem_cons.mp ht with ht | ht
          · rw [ht]
            exact ⟨hp1, Nat.lt_succ_of_lt hp2⟩
          · have htstack : t ∈ stack := hsub (hd ▸ List.mem_cons_of_mem p ht)
            obtain ⟨h1, h2⟩ := hstack t htstack
            exact ⟨h1, Nat.lt_succ_of_lt h2⟩
      · intro b hb o hget
        by_cases hbp : b = p
        · subst hbp
          rw [List.get?_set_eq] at hget
          have hgb : (σ ++ [(⟨(σ.getD a default).fields, []⟩ : NodeObj)]).get? b =
              σ.get? b := hσ1agree b hp2
          have hbsome : σ.get? b = some (σ.get ⟨b, hp2⟩) := List.get?_eq_get hp2
          rw [hgb, hbsome] at hget
          simp only [Option.map_eq_map, Option.map_some'] at hget
          cases hget
          have hgd : (σ ++ [(⟨(σ.getD a default).fields, []⟩ : NodeObj)]).getD b default =
              σ.get ⟨b, hp2⟩ := by
            rw [List.getD_eq_get?, hgb, hbsome]
            rfl
          rw [hgd]
          obtain ⟨hch, hfld⟩ := hobjs b hb (σ.get ⟨b, hp2⟩) hbsome
          refine ⟨?_, hfld⟩
          intro ch hcm
          rw [hsetlen]
          rcases List.mem_append.mp hcm with hcm | hcm
          · obtain ⟨h1, h2⟩ := hch ch hcm
            exact ⟨h1, Nat.lt_succ_of_lt h2⟩
          · rw [List.mem_singleton.mp hcm]
            exact ⟨hlen, Nat.lt_succ_self _⟩
        · rw [List.get?_set_ne _ _ (fun h => hbp h.symm)] at hget
          obtain ⟨hch, hfld⟩ := hσ1objs b hb o hget
          refine ⟨?_, hfld⟩
          intro ch hcm
          rw [hsetlen]
          exact hch ch hcm

theorem foldl_stepHeap_inv (σ₀ : List NodeObj) (input : List Nat) :
    ∀ (l : List Nat), (∀ a ∈ l, a ∈ input ∧ a < σ₀.length) →
      ∀ st, HeapInv σ₀ input st → HeapInv σ₀ input (l.foldl stepHeap st) := by
  intro l
  induction l with
  | nil => intro _ st h; exact h
  | cons a as ih =>
      intro hall st h
      rw [List.foldl_cons]
      obtain ⟨σ, roots, stack⟩ := st
      refine ih (fun x hx => hall x (List.mem_cons_of_mem a hx)) _ ?_
      exact stepHeap_inv σ₀ input σ roots stack a
        (hall a (List.mem_cons_self a as)).1 (hall a (List.mem_cons_self a as)).2 h

/-- Claim C9: in the heap model, `build_tree` never touches the pre-existing
region of the store (so the flat list and every record in it are unchanged),
every node of the produced tree lives at a freshly allocated address — disjoint
from the input addresses, and closed under `children` — so mutating a tree node
or any descendant cannot change a record of the flat list; and each fresh
node's fields are a copy of some input record's fields (`node = dict(h)` with a
fresh `children` list). -/
theorem C9_tree_ownership (σ₀ : List NodeObj) (input : List Nat)
    (hwf : ∀ a ∈ input, a < σ₀.length) :
    (σ₀.length ≤ (build_tree_heap σ₀ input).1.length ∧
      ∀ i, i < σ₀.length → (build_tree_heap σ₀ input).1.get? i = σ₀.get? i) ∧
    (∀ r ∈ (build_tree_heap σ₀ input).2,
        σ₀.length ≤ r ∧ r < (build_tree_heap σ₀ input).1.length ∧ r ∉ input) ∧
    (∀ b, σ₀.length ≤ b → ∀ o, (build_tree_heap σ₀ input).1.get? b = some o →
        (∀ ch ∈ o.children,
            σ₀.length ≤ ch ∧ ch < (build_tree_heap σ₀ input).1.length ∧ ch ∉ input) ∧
        ∃ a ∈ input, ∃ o₀, σ₀.get? a = some o₀ ∧ o.fields = o₀.fields) := by
  have hinv0 : HeapInv σ₀ input (σ₀, [], []) := by
    refine ⟨le_refl _, fun i _ => rfl, ?_, ?_, ?_⟩
    · intro r hr; exact absurd hr (List.not_mem_nil r)
    · intro t ht; exact absurd ht (List.not_mem_nil t)
    · intro b hb o hget
      exfalso
      rw [List.get?_eq_none.mpr hb] at hget
      exact Option.noConfusion hget
  have h := foldl_stepHeap_inv σ₀ input input (fun a ha => ⟨ha, hwf a ha⟩)
    (σ₀, [], []) hinv0
  obtain ⟨hlen, hagree, hroots, -, hobjs⟩ := h
  have hbt1 : (build_tree_heap σ₀ input).1 = (input.foldl stepHeap (σ₀, [], [])).1 := rfl
  have hbt2 : (build_tree_heap σ₀ input).2 =
      (input.foldl stepHeap (σ₀, [], [])).2.1 := rfl
  have hfresh : ∀ r, σ₀.length ≤ r → r ∉ input := by
    intro r hr hmem
    exact absurd (hwf r hmem) (by omega)
  rw [hbt1, hbt2]
  refine ⟨⟨hlen, hagree⟩, ?_, ?_⟩
  · intro r hr
    obtain ⟨h1, h2⟩ := hroots r hr
    exact ⟨h1, h2, hfresh r h1⟩
  · intro b hb o hget
    obtain ⟨hch, hfld⟩ := hobjs b hb o hget
    refine ⟨?_, hfld⟩
    intro ch hcm
    obtain ⟨h1, h2⟩ := hch ch hcm
    exact ⟨h1, h2, hfresh ch h1⟩

/-- Witness for C9 on a two-record store: after building the tree the original
records at addresses 0 and 1 are unchanged, and the produced roots are fresh
addresses outside the input list. -/
theorem C9_tree_ownership_witness :
    (build_tree_heap heapEx [0, 1]).1.get? 0 = heapEx.get? 0 ∧
    (build_tree_heap heapEx [0, 1]).1.get? 1 = heapEx.get? 1 ∧
    ((2 : Nat) ∈ (build_tree_heap heapEx [0, 1]).2 →
      (2 : Nat) ∉ ([0, 1] : List Nat)) := by
  have h := C9_tree_ownership heapEx [0, 1] (by
    intro a hai
    rcases List.mem_cons.mp hai with h1 | hai
    · rw [h1]; simp [heapEx]
    · rcases List.mem_cons.mp hai with h1 | hai
      · rw [h1]; simp [heapEx]
      · exact absurd hai (List.not_mem_nil a))
  refine ⟨h.1.2 0 (by simp [heapEx]), h.1.2 1 (by simp [heapEx]), ?_⟩
  intro hmem
  exact (h.2.1 2 hmem).2.2
